import Mathlib

/-!
Verification of the performance-portability computation of the
P3 analysis library (`src/p3/metrics/_pp.py`).

The embedding models a pandas `DataFrame` as a list of rows together with
column-presence flags.  Efficiency cells are exact rationals (the claims under
scrutiny concern values that are exact even in IEEE arithmetic: zeros, single
values returned unchanged, and maxima of given inputs).  The helpers
`_require_columns`, `_require_numeric` and `_sort_by_app_order` live in
`p3._utils`, which is not part of the sources; they are modelled from the
specification, as marked in their doc comments.
-/

deriving instance DecidableEq for Except

namespace P3

/-- A cell of an efficiency column: a numeric value, a null (NaN), or a
non-numeric value (e.g. a string), which fails validation. -/
inductive Cell where
  | num (q : ℚ)
  | null
  | nonNumeric
  deriving DecidableEq, Repr

/-- One record of the input table. -/
structure Row where
  problem : String
  platform : String
  application : String
  appEff : Cell
  archEff : Cell
  deriving DecidableEq, Repr

/-- The input table: column-presence flags plus the records.  When a column
flag is `false`, the corresponding `Row` fields are meaningless (the column
does not exist) and are never consulted by `pp`. -/
structure DataFrame where
  hasProblem : Bool
  hasPlatform : Bool
  hasApplication : Bool
  hasAppEff : Bool
  hasArchEff : Bool
  rows : List Row
  deriving DecidableEq, Repr

/-- The error kinds of the validation taxonomy, plus the error raised by
`statistics.harmonic_mean` (never reachable on validated input). -/
inductive PPError where
  | MissingColumnError (cols : List String)
  | MissingEfficiencyColumnError (msg : String)
  | NonNumericValueError (col : String)
  | OutOfRangeError (col : String)
  | StatisticsError (msg : String)
  deriving DecidableEq, Repr

/-- Whether the named column exists in the table. -/
def DataFrame.hasCol (df : DataFrame) (c : String) : Bool :=
  if c = "problem" then df.hasProblem
  else if c = "platform" then df.hasPlatform
  else if c = "application" then df.hasApplication
  else if c = "app eff" then df.hasAppEff
  else if c = "arch eff" then df.hasArchEff
  else false

/-- The cell of row `r` in the named efficiency column. -/
def getCell (r : Row) (c : String) : Cell :=
  if c = "app eff" then r.appEff
  else if c = "arch eff" then r.archEff
  else Cell.null

/-- Modelled from the spec: `_require_columns` (from `p3._utils`, which is not
among the sources) confirms the named columns exist and fails with a
`MissingColumnError` kind otherwise. -/
def _require_columns (df : DataFrame) (cols : List String) : Except PPError Unit :=
  match cols.filter (fun c => !df.hasCol c) with
  | [] => Except.ok ()
  | missing => Except.error (PPError.MissingColumnError missing)

/-- Modelled from the spec: `_require_numeric` (from `p3._utils`, which is not
among the sources) confirms every non-null value of each named column is
numeric and fails with a `NonNumericValueError` kind naming the offending
column otherwise. -/
def _require_numeric (df : DataFrame) (cols : List String) : Except PPError Unit :=
  match cols.filter (fun c => df.rows.any (fun r => decide (getCell r c = Cell.nonNumeric))) with
  | [] => Except.ok ()
  | c :: _ => Except.error (PPError.NonNumericValueError c)

/-- The efficiency columns present, in the order the source collects them. -/
def effCols (df : DataFrame) : List String :=
  (if df.hasAppEff then ["app eff"] else []) ++ (if df.hasArchEff then ["arch eff"] else [])

/-- The check `df[eff].fillna(0).between(0, 1)` for one cell: nulls count as 0 and hence
always pass; numeric values must lie in `[0, 1]` inclusive.  (A non-numeric
cell is unreachable here: `pp` runs `_require_numeric` first.) -/
def cellInRange01 : Cell → Bool
  | Cell.num q => decide (0 ≤ q) && decide (q ≤ 1)
  | Cell.null => true
  | Cell.nonNumeric => true

/-- The range check of `pp`: the first efficiency column holding a value
outside `[0, 1]` raises (`"{eff} must in range [0, 1]"`). -/
def rangeCheck (df : DataFrame) (effs : List String) : Except PPError Unit :=
  match effs.filter (fun e => !df.rows.all (fun r => cellInRange01 (getCell r e))) with
  | [] => Except.ok ()
  | e :: _ => Except.error (PPError.OutOfRangeError e)

/-- The model of `Series.unique`: the distinct values in first-occurrence
order (auxiliary, with an accumulator of values already seen). -/
def uniqueFirstAux {α : Type} [DecidableEq α] : List α → List α → List α
  | [], _ => []
  | x :: xs, seen =>
      if x ∈ seen then uniqueFirstAux xs seen
      else x :: uniqueFirstAux xs (x :: seen)

/-- The model of `Series.unique`: the distinct values in first-occurrence order. -/
def uniqueFirst {α : Type} [DecidableEq α] (l : List α) : List α :=
  uniqueFirstAux l []

/-- Comparison of characters by code point (auxiliary for `strLt`). -/
def charLt (a b : Char) : Bool := decide (a.toNat < b.toNat)

/-- Lexicographic comparison of character lists (auxiliary for `strLt`). -/
def strLtAux : List Char → List Char → Bool
  | [], [] => false
  | [], _ :: _ => true
  | _ :: _, [] => false
  | a :: as, b :: bs => charLt a b || (decide (a = b) && strLtAux as bs)

/-- Lexicographic string comparison by code point: the order in which pandas
sorts string group keys. -/
def strLt (s t : String) : Bool := strLtAux s.data t.data

/-- Insert into a list sorted by `le` (auxiliary for `sortLe`). -/
def insertLe {α : Type} (le : α → α → Bool) (x : α) : List α → List α
  | [] => [x]
  | y :: ys => if le x y then x :: y :: ys else y :: insertLe le x ys

/-- Sorting by a boolean comparison, modelling the sorted group keys produced
by `DataFrame.groupby` (which sorts its keys by default). -/
def sortLe {α : Type} (le : α → α → Bool) : List α → List α
  | [] => []
  | x :: xs => insertLe le x (sortLe le xs)

/-- The `(problem, platform, application)` grouping key. -/
abbrev Key := String × String × String

/-- The grouping key of a raw row. -/
def keyOf (r : Row) : Key := (r.problem, r.platform, r.application)

/-- Lexicographic comparison of grouping keys (pandas sorts string keys). -/
def keyLe (k₁ k₂ : Key) : Bool :=
  strLt k₁.1 k₂.1 ||
    (decide (k₁.1 = k₂.1) &&
      (strLt k₁.2.1 k₂.2.1 ||
        (decide (k₁.2.1 = k₂.2.1) &&
          (strLt k₁.2.2 k₂.2.2 || decide (k₁.2.2 = k₂.2.2)))))

/-- A row of the deduplicated (and later completed) table: one row per
grouping key, efficiency values optional (`none` is null/NaN). -/
structure DRow where
  problem : String
  platform : String
  application : String
  appEff : Option ℚ
  archEff : Option ℚ
  deriving DecidableEq, Repr

/-- The grouping key of a deduplicated row. -/
def keyOfD (r : DRow) : Key := (r.problem, r.platform, r.application)

/-- The numeric content of a cell (`none` for null and non-numeric). -/
def cellVal : Cell → Option ℚ
  | Cell.num q => some q
  | _ => none

/-- The maximum of a list of rationals, `none` when empty: the behaviour of
pandas `max` aggregation over the non-null values of a group. -/
def maxOpt (l : List ℚ) : Option ℚ :=
  l.foldr (fun x acc => match acc with
    | none => some x
    | some m => some (max x m)) none

/-- The `agg("max")` result for one grouping key: the key columns plus, per
efficiency column, the maximum of the non-null values of the group (null when
all are null). -/
def rowOfKey (rows : List Row) (k : Key) : DRow :=
  let grp := rows.filter (fun r => decide (keyOf r = k))
  { problem := k.1
    platform := k.2.1
    application := k.2.2
    appEff := maxOpt (grp.filterMap (fun r => cellVal r.appEff))
    archEff := maxOpt (grp.filterMap (fun r => cellVal r.archEff)) }

/-- The step `df.groupby(["problem", "platform", "application"]).agg("max")` followed
by `reset_index`: one row per distinct key, keys in sorted order. -/
def dedupMax (rows : List Row) : List DRow :=
  (sortLe keyLe (uniqueFirst (rows.map keyOf))).map (rowOfKey rows)

/-- The completion step: for every element of the cross-product of the
distinct problems, platforms and applications of the deduplicated table that
is not already present as a key, append a row with null efficiencies
(iterated in the nested order of `itertools.product`). -/
def complete (d : List DRow) : List DRow :=
  let problems := uniqueFirst (d.map (fun r => r.problem))
  let platforms := uniqueFirst (d.map (fun r => r.platform))
  let applications := uniqueFirst (d.map (fun r => r.application))
  let missing := problems.flatMap (fun p =>
    platforms.flatMap (fun pl =>
      applications.filterMap (fun a =>
        if d.any (fun r => decide (keyOfD r = (p, pl, a))) then none
        else some { problem := p, platform := pl, application := a,
                    appEff := none, archEff := none })))
  d ++ missing

/-- The reciprocal-sum pass of `statistics.harmonic_mean`: values are consumed
in order; a negative value raises `StatisticsError`, a zero value raises
`ZeroDivisionError` — reported here as `none`, which the caller turns into the
result 0. -/
def invSum : List ℚ → Except String (Option ℚ)
  | [] => Except.ok (some 0)
  | x :: xs =>
      if x < 0 then Except.error "harmonic mean does not support negative values"
      else if x = 0 then Except.ok none
      else
        match invSum xs with
        | Except.error e => Except.error e
        | Except.ok none => Except.ok none
        | Except.ok (some s) => Except.ok (some (x⁻¹ + s))

/-- The model of `statistics.harmonic_mean`: errors on an empty series, returns a single
value unchanged, returns 0 when a zero is encountered (the caught
`ZeroDivisionError`), and otherwise returns `n / Σ 1/xᵢ`. -/
def harmonic_mean (data : List ℚ) : Except String ℚ :=
  match data with
  | [] => Except.error "harmonic_mean requires at least one data point"
  | [x] =>
      if x < 0 then Except.error "harmonic mean does not support negative values"
      else Except.ok x
  | _ =>
      match invSum data with
      | Except.error e => Except.error e
      | Except.ok none => Except.ok 0
      | Except.ok (some s) => Except.ok ((data.length : ℚ) / s)

/-- The helper `_hmean` from the source: the harmonic mean of a series, materialised as a
list first. -/
def _hmean (series : List ℚ) : Except String ℚ := harmonic_mean series

/-- One row of the result table. When a `pp` column is absent (its efficiency
column was absent from the input), the corresponding field is a meaningless 0
and the `OutDF` flag records its absence. -/
structure OutRow where
  problem : String
  application : String
  appPP : ℚ
  archPP : ℚ
  deriving DecidableEq, Repr

/-- The result table: which `pp` columns exist, and the rows. -/
structure OutDF where
  hasAppPP : Bool
  hasArchPP : Bool
  rows : List OutRow
  deriving DecidableEq, Repr

/-- The `(problem, application)` aggregation key. -/
abbrev PAKey := String × String

/-- The aggregation key of a completed row. -/
def paOf (r : DRow) : PAKey := (r.problem, r.application)

/-- Lexicographic comparison of aggregation keys. -/
def paLe (k₁ k₂ : PAKey) : Bool :=
  strLt k₁.1 k₂.1 ||
    (decide (k₁.1 = k₂.1) && (strLt k₁.2 k₂.2 || decide (k₁.2 = k₂.2)))

/-- The aggregation of one `(problem, application)` group: per present
efficiency column, `_hmean` of the group's values after `fillna(0.0)`. -/
def aggRow (completed : List DRow) (hasApp hasArch : Bool) (k : PAKey) :
    Except String OutRow :=
  let grp := completed.filter (fun r => decide (paOf r = k))
  match (if hasApp then _hmean (grp.map (fun r => r.appEff.getD 0)) else Except.ok 0) with
  | Except.error e => Except.error e
  | Except.ok appv =>
    match (if hasArch then _hmean (grp.map (fun r => r.archEff.getD 0)) else Except.ok 0) with
    | Except.error e => Except.error e
    | Except.ok archv =>
        Except.ok { problem := k.1, application := k.2, appPP := appv, archPP := archv }

/-- Apply a fallible function to every element, failing on the first error
(the behaviour of applying `_hmean` group by group). -/
def mapExcept {α β ε : Type} (f : α → Except ε β) : List α → Except ε (List β)
  | [] => Except.ok []
  | x :: xs =>
      match f x with
      | Except.error e => Except.error e
      | Except.ok y =>
        match mapExcept f xs with
        | Except.error e => Except.error e
        | Except.ok ys => Except.ok (y :: ys)

/-- Modelled from the spec: `_sort_by_app_order` (from `p3._utils`, which is
not among the sources) reorders the result so that applications appear grouped
in the captured first-occurrence order, keeping the existing relative order of
rows within each application (a stable sort by position in `app_order`). -/
def _sort_by_app_order (rows : List OutRow) (app_order : List String) : List OutRow :=
  app_order.flatMap (fun a => rows.filter (fun r => decide (r.application = a)))

/-- The performance-portability computation `pp` of `src/p3/metrics/_pp.py`:
validate, capture the first-occurrence application order, deduplicate by max,
complete the cross-product with null rows, fill nulls with 0, aggregate by
harmonic mean per `(problem, application)`, rename the columns, and restore
the application order. -/
def pp (df : DataFrame) : Except PPError OutDF :=
  match _require_columns df ["problem", "platform", "application"] with
  | Except.error e => Except.error e
  | Except.ok _ =>
    let efficiencies := effCols df
    if efficiencies.isEmpty then
      Except.error (PPError.MissingEfficiencyColumnError
        "DataFrame must contain a column named 'arch eff' or 'app eff'.")
    else
      match _require_numeric df efficiencies with
      | Except.error e => Except.error e
      | Except.ok _ =>
        match rangeCheck df efficiencies with
        | Except.error e => Except.error e
        | Except.ok _ =>
          let app_order := uniqueFirst (df.rows.map (fun r => r.application))
          let deduped := dedupMax df.rows
          let completed := complete deduped
          let paKeys := sortLe paLe (uniqueFirst (completed.map paOf))
          match mapExcept (aggRow completed df.hasAppEff df.hasArchEff) paKeys with
          | Except.error e => Except.error (PPError.StatisticsError e)
          | Except.ok aggRows =>
              Except.ok { hasAppPP := df.hasAppEff, hasArchPP := df.hasArchEff,
                          rows := _sort_by_app_order aggRows app_order }

/-! ### Basic lemmas about the auxiliary functions -/

theorem mapExcept_cons_ok {α β ε : Type} {f : α → Except ε β} {x : α} {xs : List α}
    {ys : List β} (h : mapExcept f (x :: xs) = Except.ok ys) :
    ∃ y ys', f x = Except.ok y ∧ mapExcept f xs = Except.ok ys' ∧ ys = y :: ys' := by
  unfold mapExcept at h
  cases hx : f x with
  | error e => rw [hx] at h; exact absurd h (by simp)
  | ok y =>
    rw [hx] at h
    cases hxs : mapExcept f xs with
    | error e => rw [hxs] at h; exact absurd h (by simp)
    | ok ys' =>
      rw [hxs] at h
      exact ⟨y, ys', rfl, rfl, (Except.ok.injEq _ _ ▸ h).symm⟩

theorem mapExcept_ok_of_all {α β ε : Type} {f : α → Except ε β} {l : List α}
    (h : ∀ x ∈ l, ∃ y, f x = Except.ok y) : ∃ ys, mapExcept f l = Except.ok ys := by
  induction l with
  | nil => exact ⟨[], rfl⟩
  | cons x xs ih =>
    obtain ⟨y, hy⟩ := h x (List.mem_cons_self x xs)
    obtain ⟨ys, hys⟩ := ih (fun z hz => h z (List.mem_cons_of_mem x hz))
    exact ⟨y :: ys, by unfold mapExcept; rw [hy, hys]⟩

theorem mapExcept_mem_of_mem {α β ε : Type} {f : α → Except ε β} {l : List α}
    {ys : List β} (h : mapExcept f l = Except.ok ys) {x : α} (hx : x ∈ l) :
    ∃ y ∈ ys, f x = Except.ok y := by
  induction l generalizing ys with
  | nil => cases hx
  | cons a as ih =>
    obtain ⟨y, ys', hy, hys', rfl⟩ := mapExcept_cons_ok h
    rcases List.mem_cons.mp hx with rfl | hx'
    · exact ⟨y, List.mem_cons_self _ _, hy⟩
    · obtain ⟨y', hy'mem, hy'⟩ := ih hys' hx'
      exact ⟨y', List.mem_cons_of_mem _ hy'mem, hy'⟩

theorem mapExcept_mem_rev {α β ε : Type} {f : α → Except ε β} {l : List α}
    {ys : List β} (h : mapExcept f l = Except.ok ys) {y : β} (hy : y ∈ ys) :
    ∃ x ∈ l, f x = Except.ok y := by
  induction l generalizing ys with
  | nil =>
    unfold mapExcept at h
    cases (Except.ok.injEq _ _ ▸ h).symm
    cases hy
  | cons a as ih =>
    obtain ⟨y', ys', hy', hys', rfl⟩ := mapExcept_cons_ok h
    rcases List.mem_cons.mp hy with rfl | hmem
    · exact ⟨a, List.mem_cons_self _ _, hy'⟩
    · obtain ⟨x, hxmem, hx⟩ := ih hys' hmem
      exact ⟨x, List.mem_cons_of_mem _ hxmem, hx⟩

theorem mapExcept_countP {α β ε : Type} {f : α → Except ε β} {l : List α}
    {ys : List β} (h : mapExcept f l = Except.ok ys) (p : α → Bool) (q : β → Bool)
    (hpq : ∀ x y, f x = Except.ok y → q y = p x) : ys.countP q = l.countP p := by
  induction l generalizing ys with
  | nil =>
    unfold mapExcept at h
    cases (Except.ok.injEq _ _ ▸ h).symm
    rfl
  | cons a as ih =>
    obtain ⟨y, ys', hy, hys', rfl⟩ := mapExcept_cons_ok h
    rw [List.countP_cons, List.countP_cons, ih hys', hpq a y hy]

theorem mapExcept_length {α β ε : Type} {f : α → Except ε β} {l : List α}
    {ys : List β} (h : mapExcept f l = Except.ok ys) : ys.length = l.length := by
  induction l generalizing ys with
  | nil =>
    unfold mapExcept at h
    cases (Except.ok.injEq _ _ ▸ h).symm
    rfl
  | cons a as ih =>
    obtain ⟨y, ys', _, hys', rfl⟩ := mapExcept_cons_ok h
    simp [ih hys']

theorem mem_uniqueFirstAux {α : Type} [DecidableEq α] {l seen : List α} {a : α} :
    a ∈ uniqueFirstAux l seen ↔ a ∈ l ∧ a ∉ seen := by
  induction l generalizing seen with
  | nil => simp [uniqueFirstAux]
  | cons x xs ih =>
    by_cases hx : x ∈ seen
    · simp only [uniqueFirstAux, if_pos hx, ih, List.mem_cons]
      constructor
      · exact fun ⟨h1, h2⟩ => ⟨Or.inr h1, h2⟩
      · rintro ⟨rfl | h1, h2⟩
        · exact absurd hx h2
        · exact ⟨h1, h2⟩
    · rw [uniqueFirstAux, if_neg hx]
      by_cases hax : a = x
      · subst hax
        simp [hx]
      · simp [List.mem_cons, ih, hax]

theorem mem_uniqueFirst {α : Type} [DecidableEq α] {l : List α} {a : α} :
    a ∈ uniqueFirst l ↔ a ∈ l := by
  simp [uniqueFirst, mem_uniqueFirstAux]

theorem nodup_uniqueFirstAux {α : Type} [DecidableEq α] (l seen : List α) :
    (uniqueFirstAux l seen).Nodup := by
  induction l generalizing seen with
  | nil => exact List.nodup_nil
  | cons x xs ih =>
    by_cases hx : x ∈ seen
    · simpa [uniqueFirstAux, if_pos hx] using ih seen
    · rw [uniqueFirstAux, if_neg hx]
      refine List.nodup_cons.mpr ⟨fun hmem => ?_, ih (x :: seen)⟩
      exact (mem_uniqueFirstAux.mp hmem).2 (List.mem_cons_self _ _)

theorem nodup_uniqueFirst {α : Type} [DecidableEq α] (l : List α) :
    (uniqueFirst l).Nodup := nodup_uniqueFirstAux l []

theorem insertLe_perm {α : Type} (le : α → α → Bool) (x : α) (l : List α) :
    (insertLe le x l).Perm (x :: l) := by
  induction l with
  | nil => exact List.Perm.refl _
  | cons y ys ih =>
    by_cases h : le x y
    · rw [insertLe, if_pos h]
    · rw [insertLe, if_neg h]
      exact (List.Perm.cons y ih).trans (List.Perm.swap x y ys)

theorem sortLe_perm {α : Type} (le : α → α → Bool) (l : List α) :
    (sortLe le l).Perm l := by
  induction l with
  | nil => exact List.Perm.refl _
  | cons x xs ih =>
    exact (insertLe_perm le x (sortLe le xs)).trans (List.Perm.cons x ih)

theorem mem_sortLe {α : Type} {le : α → α → Bool} {l : List α} {a : α} :
    a ∈ sortLe le l ↔ a ∈ l := (sortLe_perm le l).mem_iff

theorem maxOpt_cons (x : ℚ) (xs : List ℚ) :
    maxOpt (x :: xs) = some (match maxOpt xs with | none => x | some m => max x m) := by
  show (match maxOpt xs with
    | none => some x
    | some m => some (max x m)) = _
  cases maxOpt xs <;> rfl

theorem maxOpt_eq_none_iff {l : List ℚ} : maxOpt l = none ↔ l = [] := by
  cases l with
  | nil => simp [maxOpt]
  | cons x xs =>
    rw [maxOpt_cons]
    simp

theorem maxOpt_mem {l : List ℚ} {m : ℚ} (h : maxOpt l = some m) : m ∈ l := by
  induction l generalizing m with
  | nil => cases h
  | cons x xs ih =>
    rw [maxOpt_cons] at h
    cases hxs : maxOpt xs with
    | none =>
      simp only [hxs] at h
      cases h
      exact List.mem_cons_self _ _
    | some m' =>
      simp only [hxs] at h
      cases h
      rcases le_total x m' with hle | hle
      · rw [max_eq_right hle]
        exact List.mem_cons_of_mem _ (ih hxs)
      · rw [max_eq_left hle]
        exact List.mem_cons_self _ _

theorem maxOpt_le {l : List ℚ} {m : ℚ} (h : maxOpt l = some m) :
    ∀ v ∈ l, v ≤ m := by
  induction l generalizing m with
  | nil => intro v hv; cases hv
  | cons x xs ih =>
    rw [maxOpt_cons] at h
    intro v hv
    cases hxs : maxOpt xs with
    | none =>
      simp only [hxs] at h
      cases h
      rcases List.mem_cons.mp hv with rfl | hv'
      · exact le_refl _
      · exact absurd (maxOpt_eq_none_iff.mp hxs) (List.ne_nil_of_mem hv')
    | some m' =>
      simp only [hxs] at h
      cases h
      rcases List.mem_cons.mp hv with rfl | hv'
      · exact le_max_left _ _
      · exact le_trans (ih hxs v hv') (le_max_right _ _)

theorem invSum_ok_of_nonneg {l : List ℚ} (h : ∀ x ∈ l, 0 ≤ x) :
    ∃ o, invSum l = Except.ok o := by
  induction l with
  | nil => exact ⟨some 0, rfl⟩
  | cons x xs ih =>
    have hx : ¬x < 0 := not_lt.mpr (h x (List.mem_cons_self _ _))
    rw [invSum, if_neg hx]
    by_cases hx0 : x = 0
    · rw [if_pos hx0]
      exact ⟨none, rfl⟩
    · rw [if_neg hx0]
      obtain ⟨o, ho⟩ := ih (fun y hy => h y (List.mem_cons_of_mem _ hy))
      rw [ho]
      cases o with
      | none => exact ⟨none, rfl⟩
      | some s => exact ⟨some (x⁻¹ + s), rfl⟩

theorem invSum_zero {l : List ℚ} (h : ∀ x ∈ l, 0 ≤ x) (h0 : (0 : ℚ) ∈ l) :
    invSum l = Except.ok none := by
  induction l with
  | nil => cases h0
  | cons x xs ih =>
    have hx : ¬x < 0 := not_lt.mpr (h x (List.mem_cons_self _ _))
    rw [invSum, if_neg hx]
    by_cases hx0 : x = 0
    · rw [if_pos hx0]
    · rw [if_neg hx0]
      have h0' : (0 : ℚ) ∈ xs := by
        rcases List.mem_cons.mp h0 with h' | h'
        · exact absurd h'.symm hx0
        · exact h'
      rw [ih (fun y hy => h y (List.mem_cons_of_mem _ hy)) h0']

theorem harmonic_mean_singleton {x : ℚ} (hx : 0 ≤ x) :
    harmonic_mean [x] = Except.ok x := by
  show (if x < 0 then Except.error "harmonic mean does not support negative values"
    else Except.ok x) = Except.ok x
  rw [if_neg (not_lt.mpr hx)]

theorem harmonic_mean_cons_cons (x y : ℚ) (rest : List ℚ) :
    harmonic_mean (x :: y :: rest) =
      match invSum (x :: y :: rest) with
      | Except.error e => Except.error e
      | Except.ok none => Except.ok 0
      | Except.ok (some s) => Except.ok (((x :: y :: rest).length : ℚ) / s) := rfl

theorem harmonic_mean_ok {l : List ℚ} (hne : l ≠ []) (h : ∀ x ∈ l, 0 ≤ x) :
    ∃ v, harmonic_mean l = Except.ok v := by
  match l with
  | [] => exact absurd rfl hne
  | [x] => exact ⟨x, harmonic_mean_singleton (h x (List.mem_cons_self _ _))⟩
  | x :: y :: rest =>
    rw [harmonic_mean_cons_cons]
    obtain ⟨o, ho⟩ := invSum_ok_of_nonneg h
    rw [ho]
    cases o with
    | none => exact ⟨0, rfl⟩
    | some s => exact ⟨_, rfl⟩

theorem harmonic_mean_zero {l : List ℚ} (h : ∀ x ∈ l, 0 ≤ x) (h0 : (0 : ℚ) ∈ l) :
    harmonic_mean l = Except.ok 0 := by
  match l with
  | [] => cases h0
  | [x] =>
    have hx0 : x = 0 := by
      rcases List.mem_cons.mp h0 with h' | h'
      · exact h'.symm
      · cases h'
    rw [hx0]
    exact harmonic_mean_singleton le_rfl
  | x :: y :: rest =>
    rw [harmonic_mean_cons_cons, invSum_zero h h0]

/-- A list all of whose elements are in `[0, 1]` has all elements nonnegative
after `fillna` with 0 (trivial lifting helper). -/
theorem filter_eq_singleton_of_nodup {α : Type} [DecidableEq α] {l : List α} {a : α}
    (hnd : l.Nodup) (ha : a ∈ l) : l.filter (fun x => decide (x = a)) = [a] := by
  induction l with
  | nil => cases ha
  | cons x xs ih =>
    obtain ⟨hx, hxs⟩ := List.nodup_cons.mp hnd
    by_cases hax : x = a
    · subst hax
      rw [List.filter_cons_of_pos (by simp)]
      have hnil : xs.filter (fun y => decide (y = x)) = [] := by
        rw [List.filter_eq_nil_iff]
        intro y hy
        simp only [decide_eq_true_eq]
        exact fun hyx => hx (hyx ▸ hy)
      rw [hnil]
    · rw [List.filter_cons_of_neg (by simp [hax])]
      have ha' : a ∈ xs := by
        rcases List.mem_cons.mp ha with h' | h'
        · exact absurd h'.symm hax
        · exact h'
      exact ih hxs ha'

theorem countP_decide_eq_of_nodup {α : Type} [DecidableEq α] {l : List α}
    (hnd : l.Nodup) (a : α) :
    l.countP (fun x => decide (x = a)) = if a ∈ l then 1 else 0 := by
  rw [List.countP_eq_length_filter]
  by_cases ha : a ∈ l
  · rw [filter_eq_singleton_of_nodup hnd ha, if_pos ha]
    rfl
  · rw [if_neg ha]
    have : l.filter (fun x => decide (x = a)) = [] := by
      rw [List.filter_eq_nil_iff]
      intro y hy
      simp only [decide_eq_true_eq]
      exact fun hya => ha (hya ▸ hy)
    rw [this]
    rfl

theorem mem_sort_by_app_order {rows : List OutRow} {ao : List String} {r : OutRow} :
    r ∈ _sort_by_app_order rows ao ↔ r ∈ rows ∧ r.application ∈ ao := by
  simp only [_sort_by_app_order, List.mem_flatMap, List.mem_filter,
    decide_eq_true_eq]
  constructor
  · rintro ⟨a, ha, hr, hra⟩
    exact ⟨hr, hra ▸ ha⟩
  · rintro ⟨hr, hra⟩
    exact ⟨r.application, hra, hr, rfl⟩

theorem countP_sort_by_app_order {rows : List OutRow} {ao : List String}
    (hnd : ao.Nodup) (p : OutRow → Bool) (a : String)
    (hpa : ∀ r, p r = true → r.application = a) :
    (_sort_by_app_order rows ao).countP p = if a ∈ ao then rows.countP p else 0 := by
  induction ao with
  | nil => simp [_sort_by_app_order]
  | cons b bs ih =>
    obtain ⟨hb, hbs⟩ := List.nodup_cons.mp hnd
    rw [show _sort_by_app_order rows (b :: bs) =
        rows.filter (fun r => decide (r.application = b)) ++ _sort_by_app_order rows bs
      from rfl, List.countP_append]
    have hblock : (rows.filter (fun r => decide (r.application = b))).countP p =
        if a = b then rows.countP p else 0 := by
      rw [List.countP_filter]
      by_cases hab : a = b
      · rw [if_pos hab]
        apply List.countP_congr
        intro r _
        cases hp : p r with
        | true => simp [hpa r hp, hab]
        | false => simp
      · rw [if_neg hab]
        rw [List.countP_eq_zero]
        intro r _
        cases hp : p r with
        | true => simp [hpa r hp, fun h => hab h]
        | false => simp
    rw [hblock]
    have htail : (_sort_by_app_order rows bs).countP p =
        if a ∈ bs then rows.countP p else 0 := ih hbs
    by_cases hab : a = b
    · subst hab
      rw [if_pos rfl, htail, if_neg hb, if_pos (List.mem_cons_self _ _), Nat.add_zero]
    · rw [if_neg hab, htail, Nat.zero_add]
      by_cases habs : a ∈ bs
      · rw [if_pos habs, if_pos (List.mem_cons_of_mem _ habs)]
      · rw [if_neg habs, if_neg (by simp [hab, habs])]

theorem map_app_sort_by_app_order (rows : List OutRow) (ao : List String) :
    (_sort_by_app_order rows ao).map (fun r => r.application) =
      ao.flatMap (fun a =>
        List.replicate ((rows.filter (fun r => decide (r.application = a))).length) a) := by
  rw [_sort_by_app_order, List.map_flatMap]
  refine congrArg _ (funext fun a => ?_)
  have hmem : ∀ b ∈ (rows.filter (fun r => decide (r.application = a))).map
      (fun r => r.application), b = a := by
    intro b hb
    obtain ⟨r, hr, rfl⟩ := List.mem_map.mp hb
    exact of_decide_eq_true (List.mem_filter.mp hr).2
  calc (rows.filter (fun r => decide (r.application = a))).map (fun r => r.application)
      = List.replicate (((rows.filter (fun r => decide (r.application = a))).map
          (fun r => r.application)).length) a := List.eq_replicate_of_mem hmem
    _ = _ := by rw [List.length_map]

/-! ### Lemmas about the deduplication and completion stages -/

/-- The efficiency value of a deduplicated row in the named column
(statement-side helper, generic in the column name). -/
def dval (r : DRow) (e : String) : Option ℚ :=
  if e = "app eff" then r.appEff else r.archEff

theorem cellVal_eq_some {c : Cell} {q : ℚ} (h : cellVal c = some q) : c = Cell.num q := by
  cases c with
  | num q' => cases h; rfl
  | null => cases h
  | nonNumeric => cases h

theorem mem_effCols {df : DataFrame} {e : String} :
    e ∈ effCols df ↔
      (e = "app eff" ∧ df.hasAppEff = true) ∨ (e = "arch eff" ∧ df.hasArchEff = true) := by
  rw [effCols]
  cases df.hasAppEff <;> cases df.hasArchEff <;> simp

theorem keyOfD_rowOfKey (rows : List Row) (k : Key) : keyOfD (rowOfKey rows k) = k := rfl

theorem rowOfKey_dval (rows : List Row) (k : Key) {e : String}
    (he : e = "app eff" ∨ e = "arch eff") :
    dval (rowOfKey rows k) e =
      maxOpt ((rows.filter (fun r => decide (keyOf r = k))).filterMap
        (fun r => cellVal (getCell r e))) := by
  rcases he with rfl | rfl
  · rfl
  · rw [dval, if_neg (by decide)]
    rfl

theorem dedupMax_map_keyOfD (rows : List Row) :
    (dedupMax rows).map keyOfD = sortLe keyLe (uniqueFirst (rows.map keyOf)) := by
  rw [dedupMax, List.map_map]
  have h : keyOfD ∘ rowOfKey rows = id := funext fun k => keyOfD_rowOfKey rows k
  rw [h, List.map_id]

theorem mem_dedupMax {rows : List Row} {dr : DRow} :
    dr ∈ dedupMax rows ↔ ∃ k ∈ rows.map keyOf, dr = rowOfKey rows k := by
  rw [dedupMax]
  simp only [List.mem_map, mem_sortLe, mem_uniqueFirst]
  constructor
  · rintro ⟨k, hk, rfl⟩
    exact ⟨k, hk, rfl⟩
  · rintro ⟨k, hk, rfl⟩
    exact ⟨k, hk, rfl⟩

theorem dedupMax_key_mem {rows : List Row} {k : Key} :
    k ∈ (dedupMax rows).map keyOfD ↔ k ∈ rows.map keyOf := by
  rw [dedupMax_map_keyOfD, mem_sortLe, mem_uniqueFirst]

theorem nodup_dedupMax_keys (rows : List Row) : ((dedupMax rows).map keyOfD).Nodup := by
  rw [dedupMax_map_keyOfD]
  exact (sortLe_perm keyLe _).symm.nodup (nodup_uniqueFirst _)

theorem dedupMax_problem_mem {rows : List Row} {p : String} :
    p ∈ (dedupMax rows).map (fun r => r.problem) ↔ p ∈ rows.map (fun r => r.problem) := by
  constructor
  · intro hp
    obtain ⟨dr, hdr, rfl⟩ := List.mem_map.mp hp
    obtain ⟨k, hk, rfl⟩ := mem_dedupMax.mp hdr
    obtain ⟨r, hr, rfl⟩ := List.mem_map.mp hk
    exact List.mem_map.mpr ⟨r, hr, rfl⟩
  · intro hp
    obtain ⟨r, hr, rfl⟩ := List.mem_map.mp hp
    have hk : keyOf r ∈ rows.map keyOf := List.mem_map.mpr ⟨r, hr, rfl⟩
    have hmem : rowOfKey rows (keyOf r) ∈ dedupMax rows := mem_dedupMax.mpr ⟨keyOf r, hk, rfl⟩
    exact List.mem_map.mpr ⟨rowOfKey rows (keyOf r), hmem, rfl⟩

theorem dedupMax_platform_mem {rows : List Row} {pl : String} :
    pl ∈ (dedupMax rows).map (fun r => r.platform) ↔ pl ∈ rows.map (fun r => r.platform) := by
  constructor
  · intro hp
    obtain ⟨dr, hdr, rfl⟩ := List.mem_map.mp hp
    obtain ⟨k, hk, rfl⟩ := mem_dedupMax.mp hdr
    obtain ⟨r, hr, rfl⟩ := List.mem_map.mp hk
    exact List.mem_map.mpr ⟨r, hr, rfl⟩
  · intro hp
    obtain ⟨r, hr, rfl⟩ := List.mem_map.mp hp
    have hk : keyOf r ∈ rows.map keyOf := List.mem_map.mpr ⟨r, hr, rfl⟩
    have hmem : rowOfKey rows (keyOf r) ∈ dedupMax rows := mem_dedupMax.mpr ⟨keyOf r, hk, rfl⟩
    exact List.mem_map.mpr ⟨rowOfKey rows (keyOf r), hmem, rfl⟩

theorem dedupMax_application_mem {rows : List Row} {a : String} :
    a ∈ (dedupMax rows).map (fun r => r.application) ↔
      a ∈ rows.map (fun r => r.application) := by
  constructor
  · intro hp
    obtain ⟨dr, hdr, rfl⟩ := List.mem_map.mp hp
    obtain ⟨k, hk, rfl⟩ := mem_dedupMax.mp hdr
    obtain ⟨r, hr, rfl⟩ := List.mem_map.mp hk
    exact List.mem_map.mpr ⟨r, hr, rfl⟩
  · intro hp
    obtain ⟨r, hr, rfl⟩ := List.mem_map.mp hp
    have hk : keyOf r ∈ rows.map keyOf := List.mem_map.mpr ⟨r, hr, rfl⟩
    have hmem : rowOfKey rows (keyOf r) ∈ dedupMax rows := mem_dedupMax.mpr ⟨keyOf r, hk, rfl⟩
    exact List.mem_map.mpr ⟨rowOfKey rows (keyOf r), hmem, rfl⟩

theorem mem_complete {d : List DRow} {r : DRow} :
    r ∈ complete d ↔ r ∈ d ∨
      (∃ p pl a, p ∈ d.map (fun x => x.problem) ∧ pl ∈ d.map (fun x => x.platform) ∧
        a ∈ d.map (fun x => x.application) ∧
        (¬∃ x ∈ d, keyOfD x = (p, pl, a)) ∧
        r = ⟨p, pl, a, none, none⟩) := by
  show r ∈ d ++ _ ↔ _
  rw [List.mem_append]
  apply or_congr Iff.rfl
  simp only [List.mem_flatMap, List.mem_filterMap, mem_uniqueFirst]
  constructor
  · rintro ⟨p, hp, pl, hpl, a, ha, hif⟩
    split at hif
    · cases hif
    · rename_i hc
      cases hif
      refine ⟨p, pl, a, hp, hpl, ha, ?_, rfl⟩
      intro ⟨x, hx, hkx⟩
      exact hc (List.any_eq_true.mpr ⟨x, hx, decide_eq_true hkx⟩)
  · rintro ⟨p, pl, a, hp, hpl, ha, hnot, rfl⟩
    refine ⟨p, hp, pl, hpl, a, ha, ?_⟩
    rw [if_neg ?_]
    intro hc
    obtain ⟨x, hx, hkx⟩ := List.any_eq_true.mp hc
    exact hnot ⟨x, hx, of_decide_eq_true hkx⟩

theorem mem_complete_pairs {d : List DRow} {p a : String} :
    (p, a) ∈ (complete d).map paOf ↔
      p ∈ d.map (fun x => x.problem) ∧ a ∈ d.map (fun x => x.application) := by
  constructor
  · intro h
    obtain ⟨r, hr, hpa⟩ := List.mem_map.mp h
    have hrp : r.problem = p := congrArg Prod.fst hpa
    have hra : r.application = a := congrArg Prod.snd hpa
    rcases mem_complete.mp hr with hd | ⟨p', pl', a', hp', _, ha', _, rfl⟩
    · exact ⟨List.mem_map.mpr ⟨r, hd, hrp⟩, List.mem_map.mpr ⟨r, hd, hra⟩⟩
    · exact ⟨hrp ▸ hp', hra ▸ ha'⟩
  · rintro ⟨hp, ha⟩
    obtain ⟨rp, hrp, hrpp⟩ := List.mem_map.mp hp
    by_cases hex : ∃ x ∈ d, keyOfD x = (p, rp.platform, a)
    · obtain ⟨x, hx, hkx⟩ := hex
      have hxp : x.problem = p := congrArg (fun k => k.1) hkx
      have hxa : x.application = a := congrArg (fun k => k.2.2) hkx
      refine List.mem_map.mpr ⟨x, mem_complete.mpr (Or.inl hx), ?_⟩
      rw [paOf, hxp, hxa]
    · have hpl : rp.platform ∈ d.map (fun x => x.platform) := List.mem_map.mpr ⟨rp, hrp, rfl⟩
      have hmem : (⟨p, rp.platform, a, none, none⟩ : DRow) ∈ complete d :=
        mem_complete.mpr (Or.inr ⟨p, rp.platform, a, hp, hpl, ha, hex, rfl⟩)
      exact List.mem_map.mpr ⟨_, hmem, rfl⟩

/-! ### The validated run of `pp` -/

/-- A table that passes all four validation checks: the three key columns
exist, at least one efficiency column exists, every efficiency value is
numeric or null, and every numeric efficiency value lies in `[0, 1]`. -/
def Valid (df : DataFrame) : Prop :=
  df.hasProblem = true ∧ df.hasPlatform = true ∧ df.hasApplication = true ∧
  effCols df ≠ [] ∧
  (∀ c ∈ effCols df, ∀ r ∈ df.rows, getCell r c ≠ Cell.nonNumeric) ∧
  (∀ c ∈ effCols df, ∀ r ∈ df.rows, cellInRange01 (getCell r c) = true)

instance (df : DataFrame) : Decidable (Valid df) := by
  unfold Valid
  infer_instance

theorem require_columns_ok {df : DataFrame} (h1 : df.hasProblem = true)
    (h2 : df.hasPlatform = true) (h3 : df.hasApplication = true) :
    _require_columns df ["problem", "platform", "application"] = Except.ok () := by
  have e1 : df.hasCol "problem" = df.hasProblem := rfl
  have e2 : df.hasCol "platform" = df.hasPlatform := rfl
  have e3 : df.hasCol "application" = df.hasApplication := rfl
  unfold _require_columns
  have hfil : (["problem", "platform", "application"].filter (fun c => !df.hasCol c)) = [] := by
    simp [List.filter_cons, e1, e2, e3, h1, h2, h3]
  rw [hfil]

theorem require_numeric_ok {df : DataFrame} {cols : List String}
    (h : ∀ c ∈ cols, ∀ r ∈ df.rows, getCell r c ≠ Cell.nonNumeric) :
    _require_numeric df cols = Except.ok () := by
  unfold _require_numeric
  have hfil : cols.filter
      (fun c => df.rows.any (fun r => decide (getCell r c = Cell.nonNumeric))) = [] := by
    rw [List.filter_eq_nil_iff]
    intro c hc
    simp only [List.any_eq_true, decide_eq_true_eq, not_exists]
    intro r
    rw [not_and]
    exact fun hr => h c hc r hr
  rw [hfil]

theorem rangeCheck_ok {df : DataFrame} {cols : List String}
    (h : ∀ c ∈ cols, ∀ r ∈ df.rows, cellInRange01 (getCell r c) = true) :
    rangeCheck df cols = Except.ok () := by
  unfold rangeCheck
  have hfil : cols.filter
      (fun e => !df.rows.all (fun r => cellInRange01 (getCell r e))) = [] := by
    rw [List.filter_eq_nil_iff]
    intro c hc
    simp only [Bool.not_eq_true', Bool.not_eq_false, List.all_eq_true]
    exact fun r hr => h c hc r hr
  rw [hfil]

theorem group_ne_of_mem_keys {d : List DRow} {k : PAKey}
    (hk : k ∈ sortLe paLe (uniqueFirst (d.map paOf))) :
    d.filter (fun r => decide (paOf r = k)) ≠ [] := by
  rw [mem_sortLe, mem_uniqueFirst] at hk
  obtain ⟨r, hr, hrk⟩ := List.mem_map.mp hk
  intro hnil
  have hmem : r ∈ d.filter (fun r => decide (paOf r = k)) :=
    List.mem_filter.mpr ⟨hr, by simp [hrk]⟩
  rw [hnil] at hmem
  cases hmem

theorem aggRow_ok {d : List DRow} {hA hB : Bool} {k : PAKey}
    (hne : d.filter (fun r => decide (paOf r = k)) ≠ [])
    (hApp : hA = true → ∀ r ∈ d, (0 : ℚ) ≤ r.appEff.getD 0)
    (hArch : hB = true → ∀ r ∈ d, (0 : ℚ) ≤ r.archEff.getD 0) :
    ∃ y, aggRow d hA hB k = Except.ok y := by
  have happv : ∃ v, (if hA then
      _hmean ((d.filter (fun r => decide (paOf r = k))).map (fun r => r.appEff.getD 0))
      else Except.ok 0) = Except.ok v := by
    cases hA with
    | false => exact ⟨0, rfl⟩
    | true =>
      rw [if_pos rfl]
      apply harmonic_mean_ok
      · simpa [List.map_eq_nil_iff] using hne
      · intro x hx
        obtain ⟨r, hr, rfl⟩ := List.mem_map.mp hx
        exact hApp rfl r (List.mem_filter.mp hr).1
  have harchv : ∃ v, (if hB then
      _hmean ((d.filter (fun r => decide (paOf r = k))).map (fun r => r.archEff.getD 0))
      else Except.ok 0) = Except.ok v := by
    cases hB with
    | false => exact ⟨0, rfl⟩
    | true =>
      rw [if_pos rfl]
      apply harmonic_mean_ok
      · simpa [List.map_eq_nil_iff] using hne
      · intro x hx
        obtain ⟨r, hr, rfl⟩ := List.mem_map.mp hx
        exact hArch rfl r (List.mem_filter.mp hr).1
  obtain ⟨v, hv⟩ := happv
  obtain ⟨w, hw⟩ := harchv
  refine ⟨⟨k.1, k.2, v, w⟩, ?_⟩
  simp only [aggRow, hv, hw]

theorem aggRow_ok_elim {d : List DRow} {hA hB : Bool} {k : PAKey} {y : OutRow}
    (h : aggRow d hA hB k = Except.ok y) :
    y.problem = k.1 ∧ y.application = k.2 ∧
    (hA = true →
      _hmean ((d.filter (fun r => decide (paOf r = k))).map (fun r => r.appEff.getD 0)) =
        Except.ok y.appPP) ∧
    (hB = true →
      _hmean ((d.filter (fun r => decide (paOf r = k))).map (fun r => r.archEff.getD 0)) =
        Except.ok y.archPP) := by
  simp only [aggRow] at h
  cases h1 : (if hA then
      _hmean ((d.filter (fun r => decide (paOf r = k))).map (fun r => r.appEff.getD 0))
      else Except.ok 0) with
  | error e =>
    rw [h1] at h
    cases h
  | ok appv =>
    rw [h1] at h
    cases h2 : (if hB then
        _hmean ((d.filter (fun r => decide (paOf r = k))).map (fun r => r.archEff.getD 0))
        else Except.ok 0) with
    | error e =>
      rw [h2] at h
      cases h
    | ok archv =>
      rw [h2] at h
      cases h
      refine ⟨rfl, rfl, fun hAt => ?_, fun hBt => ?_⟩
      · rw [hAt, if_pos rfl] at h1
        exact h1
      · rw [hBt, if_pos rfl] at h2
        exact h2

theorem complete_nonneg {df : DataFrame} {e : String} (he : e ∈ effCols df)
    (hrange : ∀ c ∈ effCols df, ∀ r ∈ df.rows, cellInRange01 (getCell r c) = true) :
    ∀ dr ∈ complete (dedupMax df.rows), (0 : ℚ) ≤ (dval dr e).getD 0 := by
  have he' : e = "app eff" ∨ e = "arch eff" := by
    rcases mem_effCols.mp he with ⟨rfl, _⟩ | ⟨rfl, _⟩
    · exact Or.inl rfl
    · exact Or.inr rfl
  intro dr hdr
  rcases mem_complete.mp hdr with hd | ⟨p, pl, a, _, _, _, _, rfl⟩
  · obtain ⟨k, _, rfl⟩ := mem_dedupMax.mp hd
    rw [rowOfKey_dval _ _ he']
    cases hmax : maxOpt ((df.rows.filter (fun r => decide (keyOf r = k))).filterMap
        (fun r => cellVal (getCell r e))) with
    | none => exact le_refl 0
    | some q =>
      have hq : q ∈ (df.rows.filter (fun r => decide (keyOf r = k))).filterMap
          (fun r => cellVal (getCell r e)) := maxOpt_mem hmax
      obtain ⟨r, hr, hcv⟩ := List.mem_filterMap.mp hq
      have hcell : getCell r e = Cell.num q := cellVal_eq_some hcv
      have hir := hrange e he r (List.mem_filter.mp hr).1
      rw [hcell] at hir
      simp only [cellInRange01, Bool.and_eq_true, decide_eq_true_eq] at hir
      simpa using hir.1
  · rcases he' with rfl | rfl
    · exact le_refl 0
    · exact le_refl 0

theorem pp_valid {df : DataFrame} (h : Valid df) :
    ∃ aggRows,
      mapExcept (aggRow (complete (dedupMax df.rows)) df.hasAppEff df.hasArchEff)
        (sortLe paLe (uniqueFirst ((complete (dedupMax df.rows)).map paOf))) =
        Except.ok aggRows ∧
      pp df = Except.ok ⟨df.hasAppEff, df.hasArchEff,
        _sort_by_app_order aggRows (uniqueFirst (df.rows.map (fun r => r.application)))⟩ := by
  obtain ⟨h1, h2, h3, hne, hnum, hrange⟩ := h
  have hmap : ∀ k ∈ sortLe paLe (uniqueFirst ((complete (dedupMax df.rows)).map paOf)),
      ∃ y, aggRow (complete (dedupMax df.rows)) df.hasAppEff df.hasArchEff k =
        Except.ok y := by
    intro k hk
    refine aggRow_ok (group_ne_of_mem_keys hk) (fun hAt => ?_) (fun hBt => ?_)
    · have he : "app eff" ∈ effCols df := mem_effCols.mpr (Or.inl ⟨rfl, hAt⟩)
      intro r hr
      simpa [dval] using complete_nonneg he hrange r hr
    · have he : "arch eff" ∈ effCols df := mem_effCols.mpr (Or.inr ⟨rfl, hBt⟩)
      intro r hr
      have := complete_nonneg he hrange r hr
      rwa [dval, if_neg (by decide)] at this
  obtain ⟨aggRows, hagg⟩ := mapExcept_ok_of_all hmap
  refine ⟨aggRows, hagg, ?_⟩
  have hempty : (effCols df).isEmpty = false := by
    cases heff : effCols df with
    | nil => exact absurd heff hne
    | cons c cs => rfl
  simp only [pp, require_columns_ok h1 h2 h3, hempty, Bool.false_eq_true, if_false,
    require_numeric_ok hnum, rangeCheck_ok hrange, hagg]

/-! ### The aggregation keys form the problems-times-applications cross-product -/

theorem paKeys_perm (rows : List Row) :
    (sortLe paLe (uniqueFirst ((complete (dedupMax rows)).map paOf))).Perm
      ((uniqueFirst (rows.map (fun r => r.problem))) ×ˢ
        (uniqueFirst (rows.map (fun r => r.application)))) := by
  have hnd1 : (sortLe paLe (uniqueFirst ((complete (dedupMax rows)).map paOf))).Nodup :=
    (sortLe_perm paLe _).symm.nodup (nodup_uniqueFirst _)
  have hnd2 : ((uniqueFirst (rows.map (fun r => r.problem))) ×ˢ
      (uniqueFirst (rows.map (fun r => r.application)))).Nodup :=
    (nodup_uniqueFirst _).product (nodup_uniqueFirst _)
  refine List.perm_of_nodup_nodup_toFinset_eq hnd1 hnd2 (Finset.ext fun x => ?_)
  obtain ⟨p, a⟩ := x
  rw [List.mem_toFinset, List.mem_toFinset, mem_sortLe, mem_uniqueFirst,
    mem_complete_pairs, dedupMax_problem_mem, dedupMax_application_mem, List.mem_product]
  simp [mem_uniqueFirst]

theorem countP_product_snd {P A : List String} (hA : A.Nodup) {a : String} (ha : a ∈ A) :
    (P ×ˢ A).countP (fun k => decide (k.2 = a)) = P.length := by
  induction P with
  | nil => rfl
  | cons p ps ih =>
    have hstep : (p :: ps) ×ˢ A = A.map (Prod.mk p) ++ ps ×ˢ A := rfl
    rw [hstep, List.countP_append, List.countP_map, ih]
    have hone : A.countP ((fun k : String × String => decide (k.2 = a)) ∘ Prod.mk p) = 1 := by
      have hcongr : A.countP ((fun k : String × String => decide (k.2 = a)) ∘ Prod.mk p) =
          A.countP (fun x => decide (x = a)) := by
        apply List.countP_congr
        intro x _
        simp [Function.comp]
      rw [hcongr, countP_decide_eq_of_nodup hA, if_pos ha]
    rw [hone]
    simp [Nat.add_comm]

theorem countP_product_pair {P A : List String} (hP : P.Nodup) (hA : A.Nodup)
    (p a : String) :
    (P ×ˢ A).countP (fun k => decide (k = (p, a))) =
      if p ∈ P ∧ a ∈ A then 1 else 0 := by
  rw [countP_decide_eq_of_nodup (hP.product hA)]
  by_cases hmem : (p, a) ∈ P ×ˢ A
  · rw [if_pos hmem, if_pos (List.mem_product.mp hmem)]
  · rw [if_neg hmem, if_neg (fun hc => hmem (List.mem_product.mpr hc))]

theorem flatMap_congr {α β : Type} {l : List α} {f g : α → List β}
    (h : ∀ a ∈ l, f a = g a) : l.flatMap f = l.flatMap g := by
  induction l with
  | nil => rfl
  | cons x xs ih =>
    rw [List.flatMap_cons, List.flatMap_cons, h x (List.mem_cons_self _ _),
      ih (fun a ha => h a (List.mem_cons_of_mem _ ha))]

/-- Under the zero-dominance hypothesis for `(p, pl, a)` in column `e`, the
completed table contains a row with pair key `(p, a)` whose filled value in
column `e` is 0 (either the deduplicated row, whose max is 0 or null, or a
synthesized did-not-run row). -/
theorem complete_zero_row {rows : List Row} {p pl a e : String}
    (he : e = "app eff" ∨ e = "arch eff")
    (hp : p ∈ rows.map (fun r => r.problem)) (hpl : pl ∈ rows.map (fun r => r.platform))
    (ha : a ∈ rows.map (fun r => r.application))
    (hzero : ∀ r ∈ rows, keyOf r = (p, pl, a) →
      cellVal (getCell r e) = none ∨ cellVal (getCell r e) = some 0) :
    ∃ dr ∈ complete (dedupMax rows), paOf dr = (p, a) ∧ (dval dr e).getD 0 = 0 := by
  by_cases hk : (p, pl, a) ∈ rows.map keyOf
  · refine ⟨rowOfKey rows (p, pl, a), mem_complete.mpr (Or.inl (mem_dedupMax.mpr ⟨_, hk, rfl⟩)),
      rfl, ?_⟩
    rw [rowOfKey_dval _ _ he]
    cases hmax : maxOpt ((rows.filter (fun r => decide (keyOf r = (p, pl, a)))).filterMap
        (fun r => cellVal (getCell r e))) with
    | none => rfl
    | some q =>
      have hqmem := maxOpt_mem hmax
      obtain ⟨r, hr, hcv⟩ := List.mem_filterMap.mp hqmem
      obtain ⟨hrmem, hrk⟩ := List.mem_filter.mp hr
      rcases hzero r hrmem (of_decide_eq_true hrk) with hnone | hzero'
      · rw [hnone] at hcv
        cases hcv
      · rw [hzero'] at hcv
        cases hcv
        rfl
  · have hnot : ¬∃ x ∈ dedupMax rows, keyOfD x = (p, pl, a) := by
      rintro ⟨x, hx, hkx⟩
      exact hk (dedupMax_key_mem.mp (hkx ▸ List.mem_map.mpr ⟨x, hx, rfl⟩))
    have hp' : p ∈ (dedupMax rows).map (fun r => r.problem) := dedupMax_problem_mem.mpr hp
    have hpl' : pl ∈ (dedupMax rows).map (fun r => r.platform) := dedupMax_platform_mem.mpr hpl
    have ha' : a ∈ (dedupMax rows).map (fun r => r.application) :=
      dedupMax_application_mem.mpr ha
    refine ⟨⟨p, pl, a, none, none⟩,
      mem_complete.mpr (Or.inr ⟨p, pl, a, hp', hpl', ha', hnot, rfl⟩), rfl, ?_⟩
    rcases he with rfl | rfl
    · rfl
    · rfl

/-- The result-table value derived from efficiency column `e`
(`"app eff"` feeds `app pp`, `"arch eff"` feeds `arch pp`). -/
def outVal (r : OutRow) (e : String) : ℚ :=
  if e = "app eff" then r.appPP else r.archPP

theorem pp_unfold_checks {df : DataFrame} (h1 : df.hasProblem = true)
    (h2 : df.hasPlatform = true) (h3 : df.hasApplication = true)
    (hne : effCols df ≠ [])
    (hnum : ∀ c ∈ effCols df, ∀ r ∈ df.rows, getCell r c ≠ Cell.nonNumeric) :
    pp df = match rangeCheck df (effCols df) with
      | Except.error e => Except.error e
      | Except.ok _ =>
        match mapExcept (aggRow (complete (dedupMax df.rows)) df.hasAppEff df.hasArchEff)
            (sortLe paLe (uniqueFirst ((complete (dedupMax df.rows)).map paOf))) with
        | Except.error e => Except.error (PPError.StatisticsError e)
        | Except.ok aggRows => Except.ok ⟨df.hasAppEff, df.hasArchEff,
            _sort_by_app_order aggRows (uniqueFirst (df.rows.map (fun r => r.application)))⟩ := by
  have hempty : (effCols df).isEmpty = false := by
    cases heff : effCols df with
    | nil => exact absurd heff hne
    | cons c cs => rfl
  simp only [pp, require_columns_ok h1 h2 h3, hempty, Bool.false_eq_true, if_false,
    require_numeric_ok hnum]

/-! ### Claim C9 -/

/-- C9: `pp` is deterministic — two runs on the same input table yield the
same output table (same rows, same order, same values).  In the embedding
`pp` is a pure function, reflecting that the source computes its result from
its argument alone, with no global state or randomness. -/
theorem C9_pp_deterministic (df : DataFrame) (out₁ out₂ : OutDF)
    (h₁ : pp df = Except.ok out₁) (h₂ : pp df = Except.ok out₂) : out₁ = out₂ := by
  rw [h₁] at h₂
  exact Except.ok.inj h₂

/-- Concrete input witnessing the hypotheses of `C9_pp_deterministic`. -/
def wdf9 : DataFrame :=
  ⟨true, true, true, true, false, [⟨"P1", "X", "A1", Cell.num 1, Cell.null⟩]⟩

/-- Witness for C9 at a concrete one-row table. -/
theorem C9_witness :
    (⟨true, false, [⟨"P1", "A1", 1, 0⟩]⟩ : OutDF) = ⟨true, false, [⟨"P1", "A1", 1, 0⟩]⟩ :=
  C9_pp_deterministic wdf9 _ _ (by decide) (by decide)

/-! ### Claim C10 -/

/-- C10: a table with the required columns, at least one efficiency column and
zero rows does not raise: the range check passes vacuously, the completion
step synthesizes no rows, and the result has zero rows and exactly the `pp`
columns corresponding to the efficiency columns present. -/
theorem C10_empty_input (df : DataFrame) (h1 : df.hasProblem = true)
    (h2 : df.hasPlatform = true) (h3 : df.hasApplication = true)
    (h4 : df.hasAppEff = true ∨ df.hasArchEff = true) (h5 : df.rows = []) :
    pp df = Except.ok ⟨df.hasAppEff, df.hasArchEff, []⟩ := by
  have hne : effCols df ≠ [] := by
    rcases h4 with h | h <;> simp [effCols, h]
  have hvalid : Valid df := ⟨h1, h2, h3, hne, by simp [h5], by simp [h5]⟩
  obtain ⟨aggRows, hagg, hpp⟩ := pp_valid hvalid
  rw [h5] at hagg
  have hnil : aggRows = [] := by
    have hred : mapExcept
        (aggRow (complete (dedupMax ([] : List Row))) df.hasAppEff df.hasArchEff)
        (sortLe paLe (uniqueFirst ((complete (dedupMax ([] : List Row))).map paOf))) =
        Except.ok [] := rfl
    rw [hred] at hagg
    exact (Except.ok.inj hagg).symm
  subst hnil
  rw [hpp, h5]
  rfl

/-- Concrete input witnessing the hypotheses of `C10_empty_input`. -/
def wdf10 : DataFrame := ⟨true, true, true, true, true, []⟩

/-- Witness for C10 at a concrete empty table with both efficiency columns. -/
theorem C10_witness : pp wdf10 = Except.ok ⟨true, true, []⟩ :=
  C10_empty_input wdf10 rfl rfl rfl (Or.inl rfl) rfl

/-! ### Claim C7 -/

/-- C7: a table with the key columns but neither `app eff` nor `arch eff`
fails with the `MissingEfficiencyColumnError` kind, whose message names both
required alternatives, and produces no output (the call returns the error
alone). -/
theorem C7_missing_eff_cols (df : DataFrame) (h1 : df.hasProblem = true)
    (h2 : df.hasPlatform = true) (h3 : df.hasApplication = true)
    (h4 : df.hasAppEff = false) (h5 : df.hasArchEff = false) :
    ∃ msg, pp df = Except.error (PPError.MissingEfficiencyColumnError msg) ∧
      "app eff".data <:+: msg.data ∧ "arch eff".data <:+: msg.data := by
  refine ⟨"DataFrame must contain a column named 'arch eff' or 'app eff'.", ?_, ?_, ?_⟩
  · have heff : effCols df = [] := by simp [effCols, h4, h5]
    simp only [pp, require_columns_ok h1 h2 h3, heff]
    rfl
  · exact ⟨"DataFrame must contain a column named 'arch eff' or '".data, "'.".data, by decide⟩
  · exact ⟨"DataFrame must contain a column named '".data,
      "' or 'app eff'.".data, by decide⟩

/-- Concrete input witnessing the hypotheses of `C7_missing_eff_cols`. -/
def wdf7 : DataFrame :=
  ⟨true, true, true, false, false, [⟨"P1", "X", "A1", Cell.null, Cell.null⟩]⟩

/-- Witness for C7 at a concrete table with no efficiency column. -/
theorem C7_witness :
    ∃ msg, pp wdf7 = Except.error (PPError.MissingEfficiencyColumnError msg) ∧
      "app eff".data <:+: msg.data ∧ "arch eff".data <:+: msg.data :=
  C7_missing_eff_cols wdf7 rfl rfl rfl rfl rfl

/-! ### Claim C6 -/

/-- Modelled from the spec: the propagation policy of §7 — the first violated
check, taken in the order missing key columns, then missing efficiency
columns, then non-numeric values, then out-of-range values.  `none` means all
validation checks pass. -/
def specFirstViolation (df : DataFrame) : Option PPError :=
  match ["problem", "platform", "application"].filter (fun c => !df.hasCol c) with
  | c :: cs => some (PPError.MissingColumnError (c :: cs))
  | [] =>
    if (effCols df).isEmpty then
      some (PPError.MissingEfficiencyColumnError
        "DataFrame must contain a column named 'arch eff' or 'app eff'.")
    else
      match (effCols df).filter
          (fun c => df.rows.any (fun r => decide (getCell r c = Cell.nonNumeric))) with
      | c :: _ => some (PPError.NonNumericValueError c)
      | [] =>
        match (effCols df).filter
            (fun e => !df.rows.all (fun r => cellInRange01 (getCell r e))) with
        | e :: _ => some (PPError.OutOfRangeError e)
        | [] => none

/-- C6: all validation checks run before any aggregation work, and the first
violated check — in the order missing key columns, missing efficiency
columns, non-numeric values, out-of-range values — terminates the call with
exactly that error and no output; an input violating several checks fails
with the earliest check's error. -/
theorem C6_validation_order (df : DataFrame) (e : PPError)
    (h : specFirstViolation df = some e) : pp df = Except.error e := by
  unfold specFirstViolation at h
  cases hc : ["problem", "platform", "application"].filter (fun c => !df.hasCol c) with
  | cons c cs =>
    simp only [hc] at h
    cases h
    simp only [pp, _require_columns, hc]
  | nil =>
    simp only [hc] at h
    have hreq : _require_columns df ["problem", "platform", "application"] = Except.ok () := by
      unfold _require_columns
      rw [hc]
    cases hemp : (effCols df).isEmpty with
    | true =>
      simp only [hemp, if_true] at h
      cases h
      simp only [pp, hreq, hemp, if_true]
    | false =>
      simp only [hemp, Bool.false_eq_true, if_false] at h
      cases hnum : (effCols df).filter
          (fun c => df.rows.any (fun r => decide (getCell r c = Cell.nonNumeric))) with
      | cons c cs =>
        simp only [hnum] at h
        cases h
        simp only [pp, hreq, hemp, Bool.false_eq_true, if_false, _require_numeric, hnum]
      | nil =>
        simp only [hnum] at h
        cases hrange : (effCols df).filter
            (fun e => !df.rows.all (fun r => cellInRange01 (getCell r e))) with
        | cons c cs =>
          simp only [hrange] at h
          cases h
          have hnum' : _require_numeric df (effCols df) = Except.ok () := by
            unfold _require_numeric
            rw [hnum]
          simp only [pp, hreq, hemp, Bool.false_eq_true, if_false, hnum', rangeCheck, hrange]
        | nil =>
          simp only [hrange] at h
          cases h

/-- Concrete input witnessing the hypotheses of `C6_validation_order`: the
table is missing the `problem` column *and* holds a non-numeric efficiency
value, and fails with the error of the earliest check in the spec's order. -/
def wdf6 : DataFrame :=
  ⟨false, true, true, true, false, [⟨"P1", "X", "A1", Cell.nonNumeric, Cell.null⟩]⟩

/-- Witness for C6: a doubly-invalid table fails with `MissingColumnError`. -/
theorem C6_witness : pp wdf6 = Except.error (PPError.MissingColumnError ["problem"]) :=
  C6_validation_order wdf6 (PPError.MissingColumnError ["problem"]) (by decide)

/-! ### Claim C8 -/

/-- C8: for a table with the required columns and numeric efficiency values,
`pp` fails with an `OutOfRangeError` naming an offending column if and only
if some present efficiency column holds a numeric value strictly below 0 or
strictly above 1; nulls never trigger the failure (they are treated as 0 for
this check) and the bounds 0 and 1 themselves pass. -/
theorem C8_out_of_range (df : DataFrame) (h1 : df.hasProblem = true)
    (h2 : df.hasPlatform = true) (h3 : df.hasApplication = true)
    (hne : effCols df ≠ [])
    (hnum : ∀ c ∈ effCols df, ∀ r ∈ df.rows, getCell r c ≠ Cell.nonNumeric) :
    (∀ c, pp df = Except.error (PPError.OutOfRangeError c) →
      c ∈ effCols df ∧ ∃ r ∈ df.rows, ∃ q, getCell r c = Cell.num q ∧ (q < 0 ∨ 1 < q)) ∧
    ((∃ c ∈ effCols df, ∃ r ∈ df.rows, ∃ q, getCell r c = Cell.num q ∧ (q < 0 ∨ 1 < q)) ↔
      ∃ c, pp df = Except.error (PPError.OutOfRangeError c)) := by
  have hred := pp_unfold_checks h1 h2 h3 hne hnum
  have herr : ∀ c, rangeCheck df (effCols df) = Except.error (PPError.OutOfRangeError c) →
      c ∈ effCols df ∧ ∃ r ∈ df.rows, ∃ q, getCell r c = Cell.num q ∧ (q < 0 ∨ 1 < q) := by
    intro c hrc
    unfold rangeCheck at hrc
    cases hfil : (effCols df).filter
        (fun e => !df.rows.all (fun r => cellInRange01 (getCell r e))) with
    | nil =>
      rw [hfil] at hrc
      cases hrc
    | cons c₀ rest =>
      rw [hfil] at hrc
      cases hrc
      have hmem : c ∈ (effCols df).filter
          (fun e => !df.rows.all (fun r => cellInRange01 (getCell r e))) := by
        rw [hfil]
        exact List.mem_cons_self _ _
      obtain ⟨hcmem, hnall⟩ := List.mem_filter.mp hmem
      rw [Bool.not_eq_true'] at hnall
      have hexf : ∃ r ∈ df.rows, cellInRange01 (getCell r c) = false := by
        by_contra hcon
        push_neg at hcon
        have hall : df.rows.all (fun r => cellInRange01 (getCell r c)) = true := by
          rw [List.all_eq_true]
          intro r hr
          cases hcell : cellInRange01 (getCell r c) with
          | true => rfl
          | false => exact absurd hcell (hcon r hr)
        rw [hall] at hnall
        cases hnall
      obtain ⟨r, hr, hfalse⟩ := hexf
      refine ⟨hcmem, r, hr, ?_⟩
      cases hcell : getCell r c with
      | num q =>
        rw [hcell] at hfalse
        simp only [cellInRange01, Bool.and_eq_false_iff, decide_eq_false_iff_not,
          not_le] at hfalse
        exact ⟨q, rfl, hfalse.imp (fun h => h) (fun h => h)⟩
      | null =>
        rw [hcell] at hfalse
        cases hfalse
      | nonNumeric => exact absurd hcell (hnum c hcmem r hr)
  constructor
  · intro c hpp
    rw [hred] at hpp
    cases hrc : rangeCheck df (effCols df) with
    | error e₀ =>
      rw [hrc] at hpp
      cases hpp
      exact herr c hrc
    | ok u =>
      rw [hrc] at hpp
      cases hmx : mapExcept (aggRow (complete (dedupMax df.rows)) df.hasAppEff df.hasArchEff)
          (sortLe paLe (uniqueFirst ((complete (dedupMax df.rows)).map paOf))) with
      | error m =>
        rw [hmx] at hpp
        cases hpp
      | ok aggRows =>
        rw [hmx] at hpp
        cases hpp
  · constructor
    · rintro ⟨c, hc, r, hr, q, hcell, hq⟩
      have hfalse : cellInRange01 (getCell r c) = false := by
        rw [hcell]
        simp only [cellInRange01, Bool.and_eq_false_iff, decide_eq_false_iff_not, not_le]
        exact hq.imp (fun h => h) (fun h => h)
      have hcfil : c ∈ (effCols df).filter
          (fun e => !df.rows.all (fun r => cellInRange01 (getCell r e))) := by
        rw [List.mem_filter]
        refine ⟨hc, ?_⟩
        rw [Bool.not_eq_true', List.all_eq_false]
        exact ⟨r, hr, by rw [hfalse]; simp⟩
      cases hfil : (effCols df).filter
          (fun e => !df.rows.all (fun r => cellInRange01 (getCell r e))) with
      | nil =>
        rw [hfil] at hcfil
        cases hcfil
      | cons c₀ rest =>
        refine ⟨c₀, ?_⟩
        rw [hred]
        have hrc : rangeCheck df (effCols df) =
            Except.error (PPError.OutOfRangeError c₀) := by
          unfold rangeCheck
          rw [hfil]
        rw [hrc]
    · rintro ⟨c, hpp⟩
      rw [hred] at hpp
      cases hrc : rangeCheck df (effCols df) with
      | error e₀ =>
        rw [hrc] at hpp
        cases hpp
        obtain ⟨hc, r, hr, q, hcell, hq⟩ := herr c hrc
        exact ⟨c, hc, r, hr, q, hcell, hq⟩
      | ok u =>
        rw [hrc] at hpp
        cases hmx : mapExcept (aggRow (complete (dedupMax df.rows)) df.hasAppEff df.hasArchEff)
            (sortLe paLe (uniqueFirst ((complete (dedupMax df.rows)).map paOf))) with
        | error m =>
          rw [hmx] at hpp
          cases hpp
        | ok aggRows =>
          rw [hmx] at hpp
          cases hpp

/-- Concrete input witnessing the hypotheses of `C8_out_of_range`: one value
is 1.5 > 1 in `app eff`, while a null and the bounds 0 and 1 are present and
do not trigger. -/
def wdf8 : DataFrame :=
  ⟨true, true, true, true, false,
    [⟨"P1", "X", "A1", Cell.num 0, Cell.null⟩,
     ⟨"P1", "X", "A2", Cell.num 1, Cell.null⟩,
     ⟨"P1", "Y", "A1", Cell.null, Cell.null⟩,
     ⟨"P1", "Y", "A2", Cell.num (3 / 2), Cell.null⟩]⟩

/-- Witness for C8 at a concrete table with an out-of-range value. -/
theorem C8_witness :
    (∀ c, pp wdf8 = Except.error (PPError.OutOfRangeError c) →
      c ∈ effCols wdf8 ∧ ∃ r ∈ wdf8.rows, ∃ q, getCell r c = Cell.num q ∧ (q < 0 ∨ 1 < q)) ∧
    ((∃ c ∈ effCols wdf8, ∃ r ∈ wdf8.rows, ∃ q, getCell r c = Cell.num q ∧ (q < 0 ∨ 1 < q)) ↔
      ∃ c, pp wdf8 = Except.error (PPError.OutOfRangeError c)) :=
  C8_out_of_range wdf8 rfl rfl rfl (by decide)
    (by
      intro c hc r hr
      fin_cases hc
      fin_cases hr <;> simp [getCell])

/-! ### Claim C4 -/

theorem filter_eq_singleton_of_unique {α : Type} {l : List α} {P : α → Bool} {x : α}
    (hnd : l.Nodup) (hx : x ∈ l) (hPx : P x = true)
    (huniq : ∀ y ∈ l, P y = true → y = x) : l.filter P = [x] := by
  induction l with
  | nil => cases hx
  | cons z zs ih =>
    obtain ⟨hz, hzs⟩ := List.nodup_cons.mp hnd
    by_cases hPz : P z = true
    · have hzx : z = x := huniq z (List.mem_cons_self _ _) hPz
      subst hzx
      rw [List.filter_cons_of_pos hPz]
      have hnil : zs.filter P = [] := by
        rw [List.filter_eq_nil_iff]
        intro y hy hPy
        exact hz ((huniq y (List.mem_cons_of_mem _ hy) hPy) ▸ hy)
      rw [hnil]
    · rw [List.filter_cons_of_neg (by simpa using hPz)]
      have hx' : x ∈ zs := by
        rcases List.mem_cons.mp hx with rfl | h'
        · exact absurd hPx hPz
        · exact h'
      exact ih hzs hx' (fun y hy hPy => huniq y (List.mem_cons_of_mem _ hy) hPy)

/-- C4: `pp` groups rows by the exact `(problem, platform, application)`
tuple before completion and aggregation; every deduplicated row's key occurs
in the input, each key occurring in the input yields exactly one deduplicated
row, and per efficiency column that row carries the maximum of the group's
non-null values — null exactly when all of them are null. -/
theorem C4_dedup_max (rows : List Row) (k : Key) (e : String)
    (hk : k ∈ rows.map keyOf) (he : e = "app eff" ∨ e = "arch eff") :
    (∀ dr ∈ dedupMax rows, keyOfD dr ∈ rows.map keyOf) ∧
    ∃ dr, (dedupMax rows).filter (fun r => decide (keyOfD r = k)) = [dr] ∧
      ((rows.filter (fun r => decide (keyOf r = k))).filterMap
          (fun r => cellVal (getCell r e)) = [] → dval dr e = none) ∧
      (∀ q, dval dr e = some q →
        q ∈ (rows.filter (fun r => decide (keyOf r = k))).filterMap
            (fun r => cellVal (getCell r e)) ∧
        ∀ v ∈ (rows.filter (fun r => decide (keyOf r = k))).filterMap
            (fun r => cellVal (getCell r e)), v ≤ q) ∧
      ((rows.filter (fun r => decide (keyOf r = k))).filterMap
          (fun r => cellVal (getCell r e)) ≠ [] → ∃ q, dval dr e = some q) := by
  refine ⟨fun dr hdr => dedupMax_key_mem.mp (List.mem_map.mpr ⟨dr, hdr, rfl⟩), ?_⟩
  refine ⟨rowOfKey rows k, ?_, ?_, ?_, ?_⟩
  · rw [dedupMax, List.filter_map]
    have hcomp : ((fun r => decide (keyOfD r = k)) ∘ rowOfKey rows) =
        fun k' => decide (k' = k) := by
      funext k'
      simp [Function.comp, keyOfD_rowOfKey]
    rw [hcomp]
    have hknd : (sortLe keyLe (uniqueFirst (rows.map keyOf))).Nodup :=
      (sortLe_perm keyLe _).symm.nodup (nodup_uniqueFirst _)
    have hkmem : k ∈ sortLe keyLe (uniqueFirst (rows.map keyOf)) := by
      rw [mem_sortLe, mem_uniqueFirst]
      exact hk
    rw [filter_eq_singleton_of_nodup hknd hkmem]
    rfl
  · intro hnil
    rw [rowOfKey_dval _ _ he, maxOpt_eq_none_iff]
    exact hnil
  · intro q hq
    rw [rowOfKey_dval _ _ he] at hq
    exact ⟨maxOpt_mem hq, maxOpt_le hq⟩
  · intro hne
    rw [rowOfKey_dval _ _ he]
    cases hmax : maxOpt ((rows.filter (fun r => decide (keyOf r = k))).filterMap
        (fun r => cellVal (getCell r e))) with
    | none => exact absurd (maxOpt_eq_none_iff.mp hmax) hne
    | some q => exact ⟨q, rfl⟩

/-- Concrete input witnessing the hypotheses of `C4_dedup_max`: the duplicate
rows of the spec's scenario, with `app eff` 0.4 and 0.6 for the same key. -/
def wrows4 : List Row :=
  [⟨"P1", "A", "X", Cell.num (2 / 5), Cell.null⟩,
   ⟨"P1", "A", "X", Cell.num (3 / 5), Cell.null⟩]

/-- Witness for C4 at the spec's duplicate-rows scenario, additionally
evaluating the deduplicated value to 0.6 = max(0.4, 0.6). -/
theorem C4_witness :
    ((∀ dr ∈ dedupMax wrows4, keyOfD dr ∈ wrows4.map keyOf) ∧
      ∃ dr, (dedupMax wrows4).filter (fun r => decide (keyOfD r = ("P1", "A", "X"))) = [dr] ∧
        ((wrows4.filter (fun r => decide (keyOf r = ("P1", "A", "X")))).filterMap
            (fun r => cellVal (getCell r "app eff")) = [] → dval dr "app eff" = none) ∧
        (∀ q, dval dr "app eff" = some q →
          q ∈ (wrows4.filter (fun r => decide (keyOf r = ("P1", "A", "X")))).filterMap
              (fun r => cellVal (getCell r "app eff")) ∧
          ∀ v ∈ (wrows4.filter (fun r => decide (keyOf r = ("P1", "A", "X")))).filterMap
              (fun r => cellVal (getCell r "app eff")), v ≤ q) ∧
        ((wrows4.filter (fun r => decide (keyOf r = ("P1", "A", "X")))).filterMap
            (fun r => cellVal (getCell r "app eff")) ≠ [] →
          ∃ q, dval dr "app eff" = some q)) ∧
    dval (rowOfKey wrows4 ("P1", "A", "X")) "app eff" = some (3 / 5) :=
  ⟨C4_dedup_max wrows4 ("P1", "A", "X") "app eff" (by decide) (Or.inl rfl),
   by
    rw [show dval (rowOfKey wrows4 ("P1", "A", "X")) "app eff" =
        some (max (2 / 5 : ℚ) (3 / 5)) from rfl]
    exact congrArg some (max_eq_right (by norm_num))⟩

/-! ### Claim C1 -/

/-- C1: zero-dominance — on a valid table, if application `a` has zero
efficiency (or no measured row at all) in column `e` on some platform `pl` of
the observed platform set for problem `p`, then `pp` succeeds (the 1/0
arithmetic never raises) and the aggregated `pp` value it returns for
`(p, a)` in that column is exactly 0. -/
theorem C1_zero_dominance (df : DataFrame) (h : Valid df) (p pl a e : String)
    (he : e ∈ effCols df)
    (hp : p ∈ df.rows.map (fun r => r.problem))
    (hpl : pl ∈ df.rows.map (fun r => r.platform))
    (ha : a ∈ df.rows.map (fun r => r.application))
    (hzero : ∀ r ∈ df.rows, keyOf r = (p, pl, a) →
      cellVal (getCell r e) = none ∨ cellVal (getCell r e) = some 0) :
    ∃ out, pp df = Except.ok out ∧
      (∃ orow ∈ out.rows, orow.problem = p ∧ orow.application = a ∧ outVal orow e = 0) ∧
      (∀ orow ∈ out.rows, orow.problem = p → orow.application = a → outVal orow e = 0) := by
  obtain ⟨aggRows, hagg, hpp⟩ := pp_valid h
  have hrange := h.2.2.2.2.2
  have he' : e = "app eff" ∨ e = "arch eff" := by
    rcases mem_effCols.mp he with ⟨rfl, _⟩ | ⟨rfl, _⟩
    · exact Or.inl rfl
    · exact Or.inr rfl
  obtain ⟨dr, hdrmem, hdrpa, hdrval⟩ := complete_zero_row he' hp hpl ha hzero
  have hkeymem : (p, a) ∈ sortLe paLe
      (uniqueFirst ((complete (dedupMax df.rows)).map paOf)) := by
    rw [mem_sortLe, mem_uniqueFirst]
    exact hdrpa ▸ List.mem_map.mpr ⟨dr, hdrmem, rfl⟩
  have hdrgrp : dr ∈ (complete (dedupMax df.rows)).filter
      (fun r => decide (paOf r = (p, a))) :=
    List.mem_filter.mpr ⟨hdrmem, decide_eq_true hdrpa⟩
  obtain ⟨y, hymem, hy⟩ := mapExcept_mem_of_mem hagg hkeymem
  obtain ⟨hyp, hya, hyapp, hyarch⟩ := aggRow_ok_elim hy
  rcases he' with rfl | rfl
  · -- the `app eff` column
    have hA : df.hasAppEff = true := by
      rcases mem_effCols.mp he with ⟨_, h'⟩ | ⟨hbad, _⟩
      · exact h'
      · exact absurd hbad (by decide)
    have h0mem : (0 : ℚ) ∈ ((complete (dedupMax df.rows)).filter
        (fun r => decide (paOf r = (p, a)))).map (fun r => r.appEff.getD 0) :=
      List.mem_map.mpr ⟨dr, hdrgrp, hdrval⟩
    have hnn : ∀ x ∈ ((complete (dedupMax df.rows)).filter
        (fun r => decide (paOf r = (p, a)))).map (fun r => r.appEff.getD 0), (0 : ℚ) ≤ x := by
      intro x hx
      obtain ⟨r, hrg, rfl⟩ := List.mem_map.mp hx
      exact complete_nonneg he hrange r (List.mem_filter.mp hrg).1
    have hhm : _hmean (((complete (dedupMax df.rows)).filter
        (fun r => decide (paOf r = (p, a)))).map (fun r => r.appEff.getD 0)) =
        Except.ok 0 := harmonic_mean_zero hnn h0mem
    have hyval : y.appPP = 0 := by
      have hc := hyapp hA
      rw [hhm] at hc
      exact (Except.ok.inj hc).symm
    refine ⟨_, hpp, ⟨y, ?_, hyp, hya, hyval⟩, ?_⟩
    · exact mem_sort_by_app_order.mpr ⟨hymem, by rw [hya]; exact mem_uniqueFirst.mpr ha⟩
    · intro orow homem hop hoa
      have horow : orow ∈ aggRows := (mem_sort_by_app_order.mp homem).1
      obtain ⟨k', hk', hk'eq⟩ := mapExcept_mem_rev hagg horow
      obtain ⟨hop', hoa', hoapp', _⟩ := aggRow_ok_elim hk'eq
      have hkk : k' = (p, a) := by
        rw [Prod.ext_iff]
        exact ⟨hop'.symm.trans hop, hoa'.symm.trans hoa⟩
      subst hkk
      have hc := hoapp' hA
      rw [hhm] at hc
      exact (Except.ok.inj hc).symm
  · -- the `arch eff` column
    have hB : df.hasArchEff = true := by
      rcases mem_effCols.mp he with ⟨hbad, _⟩ | ⟨_, h'⟩
      · exact absurd hbad (by decide)
      · exact h'
    have hdrval' : dr.archEff.getD 0 = 0 := by
      rw [dval, if_neg (by decide)] at hdrval
      exact hdrval
    have h0mem : (0 : ℚ) ∈ ((complete (dedupMax df.rows)).filter
        (fun r => decide (paOf r = (p, a)))).map (fun r => r.archEff.getD 0) :=
      List.mem_map.mpr ⟨dr, hdrgrp, hdrval'⟩
    have hnn : ∀ x ∈ ((complete (dedupMax df.rows)).filter
        (fun r => decide (paOf r = (p, a)))).map (fun r => r.archEff.getD 0), (0 : ℚ) ≤ x := by
      intro x hx
      obtain ⟨r, hrg, rfl⟩ := List.mem_map.mp hx
      have hnneg := complete_nonneg he hrange r (List.mem_filter.mp hrg).1
      rwa [dval, if_neg (by decide)] at hnneg
    have hhm : _hmean (((complete (dedupMax df.rows)).filter
        (fun r => decide (paOf r = (p, a)))).map (fun r => r.archEff.getD 0)) =
        Except.ok 0 := harmonic_mean_zero hnn h0mem
    have hyval : outVal y "arch eff" = 0 := by
      have hc := hyarch hB
      rw [hhm] at hc
      rw [outVal, if_neg (by decide)]
      exact (Except.ok.inj hc).symm
    refine ⟨_, hpp, ⟨y, ?_, hyp, hya, hyval⟩, ?_⟩
    · exact mem_sort_by_app_order.mpr ⟨hymem, by rw [hya]; exact mem_uniqueFirst.mpr ha⟩
    · intro orow homem hop hoa
      have horow : orow ∈ aggRows := (mem_sort_by_app_order.mp homem).1
      obtain ⟨k', hk', hk'eq⟩ := mapExcept_mem_rev hagg horow
      obtain ⟨hop', hoa', _, hoarch'⟩ := aggRow_ok_elim hk'eq
      have hkk : k' = (p, a) := by
        rw [Prod.ext_iff]
        exact ⟨hop'.symm.trans hop, hoa'.symm.trans hoa⟩
      subst hkk
      have hc := hoarch' hB
      rw [hhm] at hc
      rw [outVal, if_neg (by decide)]
      exact (Except.ok.inj hc).symm

/-- Concrete input witnessing the hypotheses of `C1_zero_dominance`:
application X ran perfectly on platform A but never ran on the observed
platform B, for problem P1. -/
def wdf1 : DataFrame :=
  ⟨true, true, true, true, false,
    [⟨"P1", "A", "X", Cell.num 1, Cell.null⟩,
     ⟨"P1", "B", "Y", Cell.num 1, Cell.null⟩]⟩

/-- Witness for C1: X's `app pp` for P1 is exactly 0 because X never ran on
platform B. -/
theorem C1_witness :
    ∃ out, pp wdf1 = Except.ok out ∧
      (∃ orow ∈ out.rows, orow.problem = "P1" ∧ orow.application = "X" ∧
        outVal orow "app eff" = 0) ∧
      (∀ orow ∈ out.rows, orow.problem = "P1" → orow.application = "X" →
        outVal orow "app eff" = 0) :=
  C1_zero_dominance wdf1 (by decide) "P1" "B" "X" "app eff"
    (by decide) (by decide) (by decide) (by decide) (by decide)

/-! ### Claim C2 -/

/-- The counterexample input for C2: two problems whose application sets are
disjoint.  The raw input has two distinct `(problem, application)` pairs, but
completion expands to the full cross-product, so the output has four rows. -/
def cdf2 : DataFrame :=
  ⟨true, true, true, true, false,
    [⟨"P1", "X", "A1", Cell.num 1, Cell.null⟩,
     ⟨"P2", "X", "A2", Cell.num 1, Cell.null⟩]⟩

/-- C2 as stated is false: this valid input has 2 distinct
`(problem, application)` pairs but `pp` returns 4 rows (one per element of
problems × applications). -/
theorem C2_counterexample :
    pp cdf2 = Except.ok ⟨true, false,
      [⟨"P1", "A1", 1, 0⟩, ⟨"P2", "A1", 0, 0⟩, ⟨"P1", "A2", 0, 0⟩, ⟨"P2", "A2", 1, 0⟩]⟩ ∧
    (uniqueFirst (cdf2.rows.map (fun r => (r.problem, r.application)))).length = 2 := by
  constructor
  · decide
  · decide

/-- C2 (amended): on a valid table the output contains exactly one row for
every pair in (distinct problems observed) × (distinct applications
observed) — the distinct `(problem, application)` pairs of the *completed*
table — and no other rows.  This agrees with the raw-input pair count only
when every application was measured for every problem. -/
theorem C2_rows_per_pair (df : DataFrame) (h : Valid df) :
    ∃ out, pp df = Except.ok out ∧
      ∀ p a, out.rows.countP
          (fun r => decide (r.problem = p) && decide (r.application = a)) =
        if p ∈ df.rows.map (fun r => r.problem) ∧
            a ∈ df.rows.map (fun r => r.application) then 1 else 0 := by
  obtain ⟨aggRows, hagg, hpp⟩ := pp_valid h
  refine ⟨_, hpp, fun p a => ?_⟩
  show (_sort_by_app_order aggRows
      (uniqueFirst (df.rows.map (fun r => r.application)))).countP _ = _
  rw [countP_sort_by_app_order (nodup_uniqueFirst _) _ a
    (fun r hr => by
      simp only [Bool.and_eq_true, decide_eq_true_eq] at hr
      exact hr.2)]
  have hdec : ∀ k : PAKey, (decide (k.1 = p) && decide (k.2 = a)) = decide (k = (p, a)) := by
    intro k
    by_cases h1 : k.1 = p
    · by_cases h2 : k.2 = a
      · have hk : k = (p, a) := Prod.ext_iff.mpr ⟨h1, h2⟩
        simp [h1, h2, hk]
      · have hk : k ≠ (p, a) := fun hc => h2 (congrArg Prod.snd hc)
        simp [h2, hk]
    · have hk : k ≠ (p, a) := fun hc => h1 (congrArg Prod.fst hc)
      simp [h1, hk]
  have hcount : aggRows.countP
      (fun r => decide (r.problem = p) && decide (r.application = a)) =
      (sortLe paLe (uniqueFirst ((complete (dedupMax df.rows)).map paOf))).countP
        (fun k => decide (k = (p, a))) := by
    refine mapExcept_countP hagg _ _ (fun k y hky => ?_)
    obtain ⟨hyp, hya, _, _⟩ := aggRow_ok_elim hky
    rw [hyp, hya]
    exact hdec k
  rw [hcount, (paKeys_perm df.rows).countP_eq,
    countP_product_pair (nodup_uniqueFirst _) (nodup_uniqueFirst _)]
  by_cases hA : a ∈ uniqueFirst (df.rows.map (fun r => r.application))
  · rw [if_pos hA]
    by_cases hP : p ∈ uniqueFirst (df.rows.map (fun r => r.problem))
    · rw [if_pos ⟨hP, hA⟩, if_pos ⟨mem_uniqueFirst.mp hP, mem_uniqueFirst.mp hA⟩]
    · rw [if_neg (fun hc => hP hc.1), if_neg (fun hc => hP (mem_uniqueFirst.mpr hc.1))]
  · rw [if_neg hA, if_neg (fun hc => hA (mem_uniqueFirst.mpr hc.2))]

/-- Witness for the amended C2 at the counterexample input: the pair
`(P1, A2)`, absent from the raw input but in the cross-product, gets exactly
one output row. -/
theorem C2_witness :
    ∃ out, pp cdf2 = Except.ok out ∧
      out.rows.countP
        (fun r => decide (r.problem = "P1") && decide (r.application = "A2")) = 1 := by
  obtain ⟨out, hout, hcnt⟩ := C2_rows_per_pair cdf2 (by decide)
  refine ⟨out, hout, ?_⟩
  have hone := hcnt "P1" "A2"
  rw [if_pos ⟨by decide, by decide⟩] at hone
  exact hone

/-! ### Claim C5 -/

/-- C5: order preservation — on a valid table, the output rows are grouped by
application in the first-occurrence order of applications in the original
(pre-deduplication) input, captured before the max-deduplication step; each
application contributes one block of rows, one row per distinct problem. -/
theorem C5_app_order (df : DataFrame) (h : Valid df) :
    ∃ out, pp df = Except.ok out ∧
      out.rows.map (fun r => r.application) =
        (uniqueFirst (df.rows.map (fun r => r.application))).flatMap
          (fun a => List.replicate
            (uniqueFirst (df.rows.map (fun r => r.problem))).length a) := by
  obtain ⟨aggRows, hagg, hpp⟩ := pp_valid h
  refine ⟨_, hpp, ?_⟩
  show (_sort_by_app_order aggRows
      (uniqueFirst (df.rows.map (fun r => r.application)))).map _ = _
  rw [map_app_sort_by_app_order]
  apply flatMap_congr
  intro a ha
  have hlen : (aggRows.filter (fun r => decide (r.application = a))).length =
      (uniqueFirst (df.rows.map (fun r => r.problem))).length := by
    rw [← List.countP_eq_length_filter]
    have hcount : aggRows.countP (fun r => decide (r.application = a)) =
        (sortLe paLe (uniqueFirst ((complete (dedupMax df.rows)).map paOf))).countP
          (fun k => decide (k.2 = a)) :=
      mapExcept_countP hagg _ _ (fun k y hky => by
        obtain ⟨_, hya, _, _⟩ := aggRow_ok_elim hky
        rw [hya])
    rw [hcount, (paKeys_perm df.rows).countP_eq]
    exact countP_product_snd (nodup_uniqueFirst _) ha
  rw [hlen]

/-- Concrete input witnessing the hypotheses of `C5_app_order`: applications
first appear in the order Z, A1 even though the rows are otherwise
unsorted. -/
def wdf5 : DataFrame :=
  ⟨true, true, true, true, false,
    [⟨"P2", "X", "Z", Cell.num 1, Cell.null⟩,
     ⟨"P1", "X", "A1", Cell.num 1, Cell.null⟩,
     ⟨"P1", "X", "Z", Cell.num 1, Cell.null⟩]⟩

/-- Witness for C5: the output is grouped as Z-block then A1-block, one row
per problem, matching first-occurrence order rather than sorted order. -/
theorem C5_witness :
    ∃ out, pp wdf5 = Except.ok out ∧
      out.rows.map (fun r => r.application) =
        (uniqueFirst (wdf5.rows.map (fun r => r.application))).flatMap
          (fun a => List.replicate
            (uniqueFirst (wdf5.rows.map (fun r => r.problem))).length a) :=
  C5_app_order wdf5 (by decide)

/-! ### Claim C3 -/

theorem mem_complete_missing {d : List DRow} {r : DRow} :
    r ∈ (uniqueFirst (d.map (fun x => x.problem))).flatMap (fun p =>
      (uniqueFirst (d.map (fun x => x.platform))).flatMap (fun pl =>
        (uniqueFirst (d.map (fun x => x.application))).filterMap (fun a =>
          if d.any (fun x => decide (keyOfD x = (p, pl, a))) then none
          else some ⟨p, pl, a, none, none⟩))) ↔
    ∃ p pl a, p ∈ d.map (fun x => x.problem) ∧ pl ∈ d.map (fun x => x.platform) ∧
      a ∈ d.map (fun x => x.application) ∧ (¬∃ x ∈ d, keyOfD x = (p, pl, a)) ∧
      r = ⟨p, pl, a, none, none⟩ := by
  simp only [List.mem_flatMap, List.mem_filterMap, mem_uniqueFirst]
  constructor
  · rintro ⟨p, hp, pl, hpl, a, ha, hif⟩
    split at hif
    · cases hif
    · rename_i hc
      cases hif
      refine ⟨p, pl, a, hp, hpl, ha, ?_, rfl⟩
      intro ⟨x, hx, hkx⟩
      exact hc (List.any_eq_true.mpr ⟨x, hx, decide_eq_true hkx⟩)
  · rintro ⟨p, pl, a, hp, hpl, ha, hnot, rfl⟩
    refine ⟨p, hp, pl, hpl, a, ha, ?_⟩
    rw [if_neg ?_]
    intro hc
    obtain ⟨x, hx, hkx⟩ := List.any_eq_true.mp hc
    exact hnot ⟨x, hx, of_decide_eq_true hkx⟩

/-- When every input row's platform is `pl` (the observed platform set is a
singleton) and `(p, pl, a)` was measured, the aggregation group for `(p, a)`
is exactly the one deduplicated row for that key: the completion step
synthesizes nothing for this pair. -/
theorem complete_group_singleton {rows : List Row} {p pl a : String}
    (hplatAll : ∀ r ∈ rows, r.platform = pl)
    (hk : (p, pl, a) ∈ rows.map keyOf) :
    (complete (dedupMax rows)).filter (fun r => decide (paOf r = (p, a))) =
      [rowOfKey rows (p, pl, a)] := by
  have hsplit : complete (dedupMax rows) = dedupMax rows ++
      (uniqueFirst ((dedupMax rows).map (fun x => x.problem))).flatMap (fun p' =>
        (uniqueFirst ((dedupMax rows).map (fun x => x.platform))).flatMap (fun pl' =>
          (uniqueFirst ((dedupMax rows).map (fun x => x.application))).filterMap (fun a' =>
            if (dedupMax rows).any (fun x => decide (keyOfD x = (p', pl', a'))) then none
            else some ⟨p', pl', a', none, none⟩))) := rfl
  rw [hsplit, List.filter_append]
  have hm : ((uniqueFirst ((dedupMax rows).map (fun x => x.problem))).flatMap (fun p' =>
      (uniqueFirst ((dedupMax rows).map (fun x => x.platform))).flatMap (fun pl' =>
        (uniqueFirst ((dedupMax rows).map (fun x => x.application))).filterMap (fun a' =>
          if (dedupMax rows).any (fun x => decide (keyOfD x = (p', pl', a'))) then none
          else some ⟨p', pl', a', none, none⟩)))).filter
      (fun r => decide (paOf r = (p, a))) = [] := by
    rw [List.filter_eq_nil_iff]
    intro x hx hpx
    obtain ⟨p', pl', a', hp', hpl', ha', hnot, rfl⟩ := mem_complete_missing.mp hx
    have hp'' : p' = p := congrArg Prod.fst (of_decide_eq_true hpx)
    have ha'' : a' = a := congrArg Prod.snd (of_decide_eq_true hpx)
    have hpl'' : pl' = pl := by
      obtain ⟨r, hr, hrp⟩ := List.mem_map.mp (dedupMax_platform_mem.mp hpl')
      exact hrp.symm.trans (hplatAll r hr)
    rw [hp'', hpl'', ha''] at hnot
    exact hnot ⟨rowOfKey rows (p, pl, a), mem_dedupMax.mpr ⟨_, hk, rfl⟩, rfl⟩
  rw [hm, List.append_nil, dedupMax, List.filter_map]
  have hcomp : ((fun r => decide (paOf r = (p, a))) ∘ rowOfKey rows) =
      fun k' : Key => decide ((k'.1, k'.2.2) = (p, a)) := rfl
  rw [hcomp]
  have hknd : (sortLe keyLe (uniqueFirst (rows.map keyOf))).Nodup :=
    (sortLe_perm keyLe _).symm.nodup (nodup_uniqueFirst _)
  have hkmem : (p, pl, a) ∈ sortLe keyLe (uniqueFirst (rows.map keyOf)) :=
    mem_sortLe.mpr (mem_uniqueFirst.mpr hk)
  have huniq : ∀ k' ∈ sortLe keyLe (uniqueFirst (rows.map keyOf)),
      decide ((k'.1, k'.2.2) = (p, a)) = true → k' = (p, pl, a) := by
    intro k' hk' hPk'
    have h1 : k'.1 = p := congrArg Prod.fst (of_decide_eq_true hPk')
    have h2 : k'.2.2 = a := congrArg Prod.snd (of_decide_eq_true hPk')
    have hk'mem : k' ∈ rows.map keyOf := mem_uniqueFirst.mp (mem_sortLe.mp hk')
    obtain ⟨r, hr, hrk⟩ := List.mem_map.mp hk'mem
    have h3 : k'.2.1 = pl := by
      rw [← hrk]
      exact hplatAll r hr
    exact Prod.ext_iff.mpr ⟨h1, Prod.ext_iff.mpr ⟨h3, h2⟩⟩
  rw [filter_eq_singleton_of_unique hknd hkmem (by simp) huniq]
  rfl

/-- The counterexample input for C3: two platforms A and B; application X is
measured (perfectly) only on A, application Y only on B. -/
def cdf3 : DataFrame :=
  ⟨true, true, true, true, false,
    [⟨"P1", "A", "X", Cell.num 1, Cell.null⟩,
     ⟨"P1", "B", "Y", Cell.num 1, Cell.null⟩]⟩

/-- C3 as stated is false: in `cdf3` the pair (P1, X) has measured data for
exactly one platform (A, with efficiency 1, which is also the max-dedup
value), yet its output `app pp` value is 0, not 1, because the observed
platform set also contains B. -/
theorem C3_counterexample :
    pp cdf3 = Except.ok ⟨true, false,
      [⟨"P1", "X", 0, 0⟩, ⟨"P1", "Y", 0, 0⟩]⟩ ∧
    uniqueFirst ((cdf3.rows.filter (fun r => decide (r.application = "X"))).map
      (fun r => r.platform)) = ["A"] ∧
    maxOpt ((cdf3.rows.filter (fun r => decide (keyOf r = ("P1", "A", "X")))).filterMap
      (fun r => cellVal (getCell r "app eff"))) = some 1 ∧
    (0 : ℚ) ≠ 1 := by
  refine ⟨by decide, by decide, by decide, by decide⟩

/-- C3 (amended): on a valid table whose *observed platform set is the
singleton `{pl}`*, if `(p, a)` has measured data (necessarily on `pl`), its
`pp` value in column `e` equals exactly the max-deduplicated efficiency `v`
of that platform.  (As originally stated — only `(p, a)` measured on exactly
one platform, other platforms observed elsewhere — the claim fails; see the
counterexample.) -/
theorem C3_single_platform (df : DataFrame) (h : Valid df) (p pl a e : String) (v : ℚ)
    (he : e ∈ effCols df)
    (hplat : uniqueFirst (df.rows.map (fun r => r.platform)) = [pl])
    (hmax : maxOpt ((df.rows.filter (fun r => decide (keyOf r = (p, pl, a)))).filterMap
        (fun r => cellVal (getCell r e))) = some v) :
    ∃ out, pp df = Except.ok out ∧
      (∃ orow ∈ out.rows, orow.problem = p ∧ orow.application = a ∧ outVal orow e = v) ∧
      (∀ orow ∈ out.rows, orow.problem = p → orow.application = a → outVal orow e = v) := by
  obtain ⟨aggRows, hagg, hpp⟩ := pp_valid h
  have hrange := h.2.2.2.2.2
  have he' : e = "app eff" ∨ e = "arch eff" := by
    rcases mem_effCols.mp he with ⟨rfl, _⟩ | ⟨rfl, _⟩
    · exact Or.inl rfl
    · exact Or.inr rfl
  have hplatAll : ∀ r ∈ df.rows, r.platform = pl := by
    intro r hr
    have hmem : r.platform ∈ uniqueFirst (df.rows.map (fun r => r.platform)) :=
      mem_uniqueFirst.mpr (List.mem_map.mpr ⟨r, hr, rfl⟩)
    rw [hplat] at hmem
    simpa using hmem
  obtain ⟨r₁, hr₁, hcv₁⟩ := List.mem_filterMap.mp (maxOpt_mem hmax)
  obtain ⟨hr₁mem, hr₁k⟩ := List.mem_filter.mp hr₁
  have hk : (p, pl, a) ∈ df.rows.map keyOf :=
    List.mem_map.mpr ⟨r₁, hr₁mem, of_decide_eq_true hr₁k⟩
  have ha : a ∈ df.rows.map (fun r => r.application) :=
    List.mem_map.mpr ⟨r₁, hr₁mem, congrArg (fun k : Key => k.2.2) (of_decide_eq_true hr₁k)⟩
  have hvnn : (0 : ℚ) ≤ v := by
    have hcell : getCell r₁ e = Cell.num v := cellVal_eq_some hcv₁
    have hir := hrange e he r₁ hr₁mem
    rw [hcell] at hir
    simp only [cellInRange01, Bool.and_eq_true, decide_eq_true_eq] at hir
    exact hir.1
  have hgrp := complete_group_singleton hplatAll hk
  have hdval : dval (rowOfKey df.rows (p, pl, a)) e = some v := by
    rw [rowOfKey_dval _ _ he']
    exact hmax
  have hkeymem : (p, a) ∈ sortLe paLe
      (uniqueFirst ((complete (dedupMax df.rows)).map paOf)) := by
    rw [mem_sortLe, mem_uniqueFirst]
    refine List.mem_map.mpr ⟨rowOfKey df.rows (p, pl, a), ?_, rfl⟩
    exact mem_complete.mpr (Or.inl (mem_dedupMax.mpr ⟨_, hk, rfl⟩))
  obtain ⟨y, hymem, hy⟩ := mapExcept_mem_of_mem hagg hkeymem
  obtain ⟨hyp, hya, hyapp, hyarch⟩ := aggRow_ok_elim hy
  rcases he' with rfl | rfl
  · have hA : df.hasAppEff = true := by
      rcases mem_effCols.mp he with ⟨_, h'⟩ | ⟨hbad, _⟩
      · exact h'
      · exact absurd hbad (by decide)
    have hvals : ((complete (dedupMax df.rows)).filter
        (fun r => decide (paOf r = (p, a)))).map (fun r => r.appEff.getD 0) = [v] := by
      rw [hgrp]
      show [(rowOfKey df.rows (p, pl, a)).appEff.getD 0] = [v]
      have : (rowOfKey df.rows (p, pl, a)).appEff = some v := hdval
      rw [this]
      rfl
    have hhm : _hmean (((complete (dedupMax df.rows)).filter
        (fun r => decide (paOf r = (p, a)))).map (fun r => r.appEff.getD 0)) =
        Except.ok v := by
      rw [hvals]
      exact harmonic_mean_singleton hvnn
    have hyval : y.appPP = v := by
      have hc := hyapp hA
      rw [hhm] at hc
      exact (Except.ok.inj hc).symm
    refine ⟨_, hpp, ⟨y, ?_, hyp, hya, hyval⟩, ?_⟩
    · exact mem_sort_by_app_order.mpr ⟨hymem, by rw [hya]; exact mem_uniqueFirst.mpr ha⟩
    · intro orow homem hop hoa
      have horow : orow ∈ aggRows := (mem_sort_by_app_order.mp homem).1
      obtain ⟨k', hk', hk'eq⟩ := mapExcept_mem_rev hagg horow
      obtain ⟨hop', hoa', hoapp', _⟩ := aggRow_ok_elim hk'eq
      have hkk : k' = (p, a) := by
        rw [Prod.ext_iff]
        exact ⟨hop'.symm.trans hop, hoa'.symm.trans hoa⟩
      subst hkk
      have hc := hoapp' hA
      rw [hhm] at hc
      exact (Except.ok.inj hc).symm
  · have hB : df.hasArchEff = true := by
      rcases mem_effCols.mp he with ⟨hbad, _⟩ | ⟨_, h'⟩
      · exact absurd hbad (by decide)
      · exact h'
    have hvals : ((complete (dedupMax df.rows)).filter
        (fun r => decide (paOf r = (p, a)))).map (fun r => r.archEff.getD 0) = [v] := by
      rw [hgrp]
      show [(rowOfKey df.rows (p, pl, a)).archEff.getD 0] = [v]
      have harch : (rowOfKey df.rows (p, pl, a)).archEff = some v := by
        rw [dval, if_neg (by decide)] at hdval
        exact hdval
      rw [harch]
      rfl
    have hhm : _hmean (((complete (dedupMax df.rows)).filter
        (fun r => decide (paOf r = (p, a)))).map (fun r => r.archEff.getD 0)) =
        Except.ok v := by
      rw [hvals]
      exact harmonic_mean_singleton hvnn
    have hyval : outVal y "arch eff" = v := by
      have hc := hyarch hB
      rw [hhm] at hc
      rw [outVal, if_neg (by decide)]
      exact (Except.ok.inj hc).symm
    refine ⟨_, hpp, ⟨y, ?_, hyp, hya, hyval⟩, ?_⟩
    · exact mem_sort_by_app_order.mpr ⟨hymem, by rw [hya]; exact mem_uniqueFirst.mpr ha⟩
    · intro orow homem hop hoa
      have horow : orow ∈ aggRows := (mem_sort_by_app_order.mp homem).1
      obtain ⟨k', hk', hk'eq⟩ := mapExcept_mem_rev hagg horow
      obtain ⟨hop', hoa', _, hoarch'⟩ := aggRow_ok_elim hk'eq
      have hkk : k' = (p, a) := by
        rw [Prod.ext_iff]
        exact ⟨hop'.symm.trans hop, hoa'.symm.trans hoa⟩
      subst hkk
      have hc := hoarch' hB
      rw [hhm] at hc
      rw [outVal, if_neg (by decide)]
      exact (Except.ok.inj hc).symm

/-- Concrete input witnessing the hypotheses of `C3_single_platform`: a
single observed platform A, with the key (P1, A, X) measured twice (values 1
and 0, collapsing to 1 by max-deduplication). -/
def wdf3 : DataFrame :=
  ⟨true, true, true, true, false,
    [⟨"P1", "A", "X", Cell.num 1, Cell.null⟩,
     ⟨"P1", "A", "X", Cell.num 0, Cell.null⟩]⟩

/-- Witness for the amended C3: with platform set {A}, the `app pp` of
(P1, X) equals the max-deduplicated measured value 1 exactly. -/
theorem C3_witness :
    ∃ out, pp wdf3 = Except.ok out ∧
      (∃ orow ∈ out.rows, orow.problem = "P1" ∧ orow.application = "X" ∧
        outVal orow "app eff" = 1) ∧
      (∀ orow ∈ out.rows, orow.problem = "P1" → orow.application = "X" →
        outVal orow "app eff" = 1) :=
  C3_single_platform wdf3 (by decide) "P1" "A" "X" "app eff" 1
    (by decide) (by decide) (by decide)

end P3
